import Mathlib

/-!
A verification development for `lsh` (src/main.c).

The C program is embedded shallowly.

* Text is `List Char`; a C string is represented by the characters that precede its
  terminating NUL.
* A heap block is a list of cells, `none` being a cell that was never written
  (indeterminate content).  Its length is the allocated capacity, and every store is
  bounds-checked: a store outside the block is undefined behaviour and yields
  `Outcome.fault`.
* Everything outside the process (input stream, output channels, working directory,
  allocator, `chdir`, `fork`, `execvp`, `waitpid`) is the `World` together with an
  oracle `OS` whose answers may depend on the whole history.
* The `int` counters of `lsh_read_line` are 32-bit two's complement integers and `size_t`
  has 64 bits: the addition that leaves `int` wraps, and the size it converts to is refused
  by every allocator.  The counters of `lsh_split_line` are naturals; they agree with the
  source for every line that `lsh_read_line` can return.
* A process started by `fork` shares the open standard input: what the loop finds unread
  after a dispatch is an answer of the oracle.
* `free` has no observable effect and is not represented.
-/

namespace Lsh

/-! ## The world outside the process -/

/-- Observable actions of the process, in the order in which they happen. -/
inductive Event where
  | out (s : List Char)
  | err (s : List Char)
  | perror (s : List Char)
  | chdir (path : List Char) (ok : Bool)
  | fork (pid : Int)
  | execvp (file : List Char) (argv : List (List Char))
  | waitpid (pid : Int) (status : Int)
  deriving DecidableEq

/-- State of the environment as seen by the process: the unread part of standard input
(end-of-input follows its last character), the actions performed so far, and the working
directory (named by the path of the last successful `chdir`). -/
structure World where
  stdin : List Char
  trace : List Event
  cwd : List Char
  deriving DecidableEq

/-- Answers of the operating system and the C library.  Each may depend on the current
world.  `alloc w n` tells whether a request for a block of `n` cells is granted; `chdir`
tells whether the change succeeds; `fork` is the value returned by `fork()` in the process
that is being followed (0 in the duplicate, negative on failure); `execvp` tells whether
the image is replaced; `waitpid` is the status stored by the call; `WIFEXITED` and
`WIFSIGNALED` are the status tests of `<sys/wait.h>`; `input w` is the unread input that
the process finds at its next read after a dispatch that ended in world `w` (a child shares
the open file, so it may have consumed input or moved the position back). -/
structure OS where
  input : World → List Char
  alloc : World → Nat → Bool
  chdir : World → List Char → Bool
  fork : World → Int
  execvp : World → List Char → List (List Char) → Bool
  waitpid : World → Int → Int
  WIFEXITED : Int → Bool
  WIFSIGNALED : Int → Bool

/-- Append one action to the history. -/
def World.emit (w : World) (e : Event) : World :=
  { stdin := w.stdin, trace := w.trace ++ [e], cwd := w.cwd }

/-- The ways a C function can end. -/
inductive Outcome (α : Type) where
  | returned (val : α) (w : World)
  | exited (code : Int) (w : World)
  | replaced (file : List Char) (argv : List (List Char)) (w : World)
  | fault (w : World)
  | timeout (w : World)
  deriving DecidableEq

/-- Sequencing: the continuation runs only when the first computation returns. -/
def Outcome.bind {α β : Type} (m : Outcome α) (f : α → World → Outcome β) : Outcome β :=
  match m with
  | .returned a w => f a w
  | .exited c w => .exited c w
  | .replaced p a w => .replaced p a w
  | .fault w => .fault w
  | .timeout w => .timeout w

def EXIT_SUCCESS : Int := 0

def EXIT_FAILURE : Int := 1

/-! ## Memory -/

/-- A value of type `char *`: NULL, or a pointer to a string (given by its characters). -/
inductive CharPtr where
  | null
  | str (s : List Char)
  deriving DecidableEq

/-- A character buffer on the heap. -/
abbrev CBuf := List (Option Char)

/-- An array of `char *` on the heap. -/
abbrev Args := List (Option CharPtr)

/-- Fresh block of `n` cells (`malloc`). -/
def mallocBlock {α : Type} (n : Nat) : List (Option α) :=
  List.replicate n none

/-- Block resized to `n` cells, contents preserved (`realloc`). -/
def reallocBlock {α : Type} (b : List (Option α)) (n : Nat) : List (Option α) :=
  b.take n ++ List.replicate (n - b.length) none

/-- Store `b[i] = v`; `none` when `i` is outside the block. -/
def store {α : Type} (b : List (Option α)) (i : Nat) (v : α) : Option (List (Option α)) :=
  if i < b.length then some (b.set i (some v)) else none

/-- Load `b[i]`; `none` when `i` is outside the block or the cell was never written. -/
def load {α : Type} (b : List (Option α)) (i : Nat) : Option α :=
  (b.get? i).join

/-- The NUL character. -/
def NUL : Char := Char.ofNat 0

/-- The C string that starts at the beginning of a character buffer: the characters
before the first NUL.  `none` when an unwritten cell or the end of the block comes first. -/
def cstr : CBuf → Option (List Char)
  | [] => none
  | none :: _ => none
  | some c :: rest => if c = NUL then some [] else (cstr rest).map (fun s => c :: s)

/-- The argument vector that starts at the beginning of a pointer array: the strings
before the first NULL.  `none` when an unwritten cell or the end of the block comes first. -/
def argv : Args → Option (List (List Char))
  | [] => none
  | none :: _ => none
  | some .null :: _ => some []
  | some (.str s) :: rest => (argv rest).map (fun l => s :: l)

/-! ## C library functions used by the program -/

/-- The library function `strcmp`: zero exactly when the strings are equal, otherwise the
sign of the first difference. -/
def strcmp : List Char → List Char → Int
  | [], [] => 0
  | [], _ :: _ => -1
  | _ :: _, [] => 1
  | a :: as, b :: bs => if a = b then strcmp as bs else if a < b then -1 else 1

/-- The library function `strtok`.  `str` is the first argument (`none` for NULL), `saved`
the position remembered from the previous call.  Leading delimiters are skipped; if
nothing is left the result is NULL; otherwise the token runs up to the next delimiter,
which is overwritten by a NUL, and the remembered position is just after it (or the end of
the string).  Returns the token and the new remembered position. -/
def strtok (str : Option (List Char)) (delim : List Char) (saved : List Char) :
    Option (List Char) × List Char :=
  let s := (str.getD saved).dropWhile (fun c => decide (c ∈ delim))
  if s = [] then (none, [])
  else (some (s.takeWhile (fun c => !decide (c ∈ delim))),
        (s.dropWhile (fun c => !decide (c ∈ delim))).drop 1)

/-! ## Tokenizer -/

def LSH_TOK_BUFSIZE : Nat := 64

/-- The delimiter set: space, tab, carriage return, newline, bell. -/
def LSH_TOK_DELIM : List Char := " \t\r\n\x07".toList

def allocation_error : List Char := "lsh: allocation error\n".toList

/-- The `while (token != NULL)` loop of `lsh_split_line` followed by the store of the
sentinel.  `fuel` bounds the number of iterations. -/
def splitLoop (os : OS) (w : World) : Nat → Option (List Char) → List Char → Nat → Nat →
    Args → Outcome Args
  | 0, _, _, _, _, _ => .timeout w
  | _ + 1, none, _, _, position, tokens =>
    match store tokens position CharPtr.null with
    | none => .fault w
    | some t => .returned t w
  | fuel + 1, some token, saved, bufsize, position, tokens =>
    match store tokens position (CharPtr.str token) with
    | none => .fault w
    | some t =>
      let position := position + 1
      if position ≥ bufsize then
        let bufsize := bufsize + LSH_TOK_BUFSIZE
        if os.alloc w bufsize then
          let next := strtok none LSH_TOK_DELIM saved
          splitLoop os w fuel next.1 next.2 bufsize position (reallocBlock t bufsize)
        else .exited EXIT_FAILURE (w.emit (.err allocation_error))
      else
        let next := strtok none LSH_TOK_DELIM saved
        splitLoop os w fuel next.1 next.2 bufsize position t

/-- Embedding of `lsh_split_line`.  The tokens are pointers into `line`; they are represented by
the strings they point to.  Every iteration consumes at least one character of the line,
so its length plus two bounds the number of iterations. -/
def lsh_split_line (os : OS) (w : World) (line : CBuf) : Outcome Args :=
  let bufsize := LSH_TOK_BUFSIZE
  if os.alloc w bufsize then
    match cstr line with
    | none => .fault w
    | some s =>
      let first := strtok (some s) LSH_TOK_DELIM []
      splitLoop os w (s.length + 2) first.1 first.2 bufsize 0 (mallocBlock bufsize)
  else .exited EXIT_FAILURE (w.emit (.err allocation_error))

/-! ## Line reader -/

def LSH_RL_BUFSIZE : Nat := 1024

/-- The value an `int` variable holds after a result `x` of `int` arithmetic: `x` reduced to
the 32-bit two's complement range. -/
def wrapInt (x : Int) : Int :=
  (x + 2147483648) % 4294967296 - 2147483648

/-- Conversion of an `int` to `size_t` (64 bits), as happens to the size passed to `malloc`
and `realloc`. -/
def toSize (x : Int) : Nat :=
  (x % 18446744073709551616).toNat

/-- The largest size for which an allocator can provide a block (`PTRDIFF_MAX`). -/
def MAX_BLOCK : Nat := 9223372036854775807

/-- Outcome of a request for a block of `n` cells: a size above `MAX_BLOCK` is refused by
every allocator, otherwise the oracle decides. -/
def granted (os : OS) (w : World) (n : Nat) : Bool :=
  decide (n ≤ MAX_BLOCK) && os.alloc w n

/-- Store `b[i] = v` for an `int` index; `none` when `i` is outside the block. -/
def storeAt {α : Type} (b : List (Option α)) (i : Int) (v : α) : Option (List (Option α)) :=
  if 0 ≤ i then store b i.toNat v else none

/-- The `while (1)` loop of `lsh_read_line`.  The first argument is the unread input;
`getchar` takes its first character, or reports end-of-input when it is empty.  `bufsize`
and `position` are `int` variables. -/
def readLoop (os : OS) : List Char → World → Int → Int → CBuf → Outcome CBuf
  | [], w, _, _, _ =>
    .exited EXIT_SUCCESS { stdin := [], trace := w.trace, cwd := w.cwd }
  | c :: rest, w, bufsize, position, buffer =>
    let w1 : World := { stdin := rest, trace := w.trace, cwd := w.cwd }
    if c = '\n' then
      match storeAt buffer position NUL with
      | none => .fault w1
      | some b => .returned b w1
    else
      match storeAt buffer position c with
      | none => .fault w1
      | some b =>
        let position := wrapInt (position + 1)
        if position ≥ bufsize then
          let bufsize := wrapInt (bufsize + LSH_RL_BUFSIZE)
          if granted os w1 (toSize bufsize) then
            readLoop os rest w1 bufsize position (reallocBlock b (toSize bufsize))
          else .exited EXIT_FAILURE (w1.emit (.err allocation_error))
        else readLoop os rest w1 bufsize position b

/-- Embedding of `lsh_read_line`. -/
def lsh_read_line (os : OS) (w : World) : Outcome CBuf :=
  let bufsize : Int := LSH_RL_BUFSIZE
  if granted os w (toSize bufsize) then
    readLoop os w.stdin w bufsize 0 (mallocBlock (toSize bufsize))
  else .exited EXIT_FAILURE (w.emit (.err allocation_error))

/-! ## Builtin commands -/

/-- Names of the builtin commands, in declaration order. -/
def builtin_str : List (List Char) :=
  ["cd".toList, "help".toList, "exit".toList]

def lsh_num_builtins : Nat := builtin_str.length

/-- Embedding of `lsh_cd`. -/
def lsh_cd (os : OS) (w : World) (args : Args) : Outcome Int :=
  match load args 1 with
  | none => .fault w
  | some .null => .returned 1 (w.emit (.err "lsh: expected argument to \"cd\"\n".toList))
  | some (.str dir) =>
    let ok := os.chdir w dir
    let w1 : World :=
      { stdin := w.stdin, trace := w.trace ++ [.chdir dir ok],
        cwd := if ok then dir else w.cwd }
    if !ok then .returned 1 (w1.emit (.perror "lsh".toList))
    else .returned 1 w1

/-- The `for` loop of `lsh_help`: one `printf("  %s\n", builtin_str[i])` per index. -/
def helpLoop (w : World) : List Nat → Outcome Unit
  | [] => .returned () w
  | i :: is =>
    match builtin_str.get? i with
    | none => .fault w
    | some name => helpLoop (w.emit (.out ("  ".toList ++ name ++ "\n".toList))) is

/-- Embedding of `lsh_help`. -/
def lsh_help (_os : OS) (w : World) (_args : Args) : Outcome Int :=
  let w1 := w.emit (.out "Saurabh's version of Stephen B's LSH\n".toList)
  let w2 := w1.emit (.out "Type program names and arguments, and hit enter.\n".toList)
  let w3 := w2.emit (.out "The following are built in:\n".toList)
  (helpLoop w3 (List.range lsh_num_builtins)).bind fun _ w4 =>
    .returned 1 (w4.emit (.out "Use the man command for information on other programs.\n".toList))

/-- Embedding of `lsh_exit`. -/
def lsh_exit (_os : OS) (w : World) (_args : Args) : Outcome Int :=
  .returned 0 w

/-- Handlers of the builtin commands, parallel to `builtin_str`. -/
def builtin_func : List (OS → World → Args → Outcome Int) :=
  [lsh_cd, lsh_help, lsh_exit]

/-! ## Process launcher -/

/-- The `do ... while` loop of `lsh_launch`: call `waitpid` until the status is "exited" or
"signaled".  `fuel` bounds the number of calls. -/
def waitLoop (os : OS) (pid : Int) : Nat → World → Outcome Unit
  | 0, w => .timeout w
  | fuel + 1, w =>
    let status := os.waitpid w pid
    let w1 := w.emit (.waitpid pid status)
    if !os.WIFEXITED status && !os.WIFSIGNALED status then waitLoop os pid fuel w1
    else .returned () w1

/-- Embedding of `lsh_launch`.  `execvp(args[0], args)` needs `args[0]` to be a string and
`args` to be NULL-terminated. -/
def lsh_launch (fuel : Nat) (os : OS) (w : World) (args : Args) : Outcome Int :=
  let pid := os.fork w
  let w1 := w.emit (.fork pid)
  if pid = 0 then
    match load args 0, argv args with
    | some (.str file), some av =>
      if os.execvp w1 file av then .replaced file av w1
      else .exited EXIT_FAILURE ((w1.emit (.execvp file av)).emit (.perror "lsh".toList))
    | _, _ => .fault w1
  else if pid < 0 then
    .returned 1 (w1.emit (.perror "lsh".toList))
  else
    (waitLoop os pid fuel w1).bind fun _ w2 => .returned 1 w2

/-! ## Dispatcher -/

/-- The `for` loop of `lsh_execute` over the indices that remain to be tried, followed by
the call of `lsh_launch` when none matched. -/
def executeLoop (fuel : Nat) (os : OS) (w : World) (args : Args) (arg0 : List Char) :
    List Nat → Outcome Int
  | [] => lsh_launch fuel os w args
  | i :: is =>
    match builtin_str.get? i, builtin_func.get? i with
    | some name, some handler =>
      if strcmp arg0 name = 0 then handler os w args
      else executeLoop fuel os w args arg0 is
    | _, _ => .fault w

/-- Embedding of `lsh_execute`.  `fuel` bounds the number of `waitpid` calls of a launch. -/
def lsh_execute (fuel : Nat) (os : OS) (w : World) (args : Args) : Outcome Int :=
  match load args 0 with
  | none => .fault w
  | some .null => .returned 1 w
  | some (.str arg0) => executeLoop fuel os w args arg0 (List.range lsh_num_builtins)

/-! ## Read-eval loop -/

/-- The world in which the next iteration of the loop starts after a dispatch that ended in
`w`: the unread input is the one the operating system presents then. -/
def nextInput (os : OS) (w : World) : World :=
  { stdin := os.input w, trace := w.trace, cwd := w.cwd }

/-- The `do ... while (status)` loop of `lsh_loop`; the second number bounds the number of
iterations. -/
def loopBody (fuel : Nat) (os : OS) : Nat → World → Outcome Unit
  | 0, w => .timeout w
  | k + 1, w =>
    (lsh_read_line os (w.emit (.out "> ".toList))).bind fun line w1 =>
    (lsh_split_line os w1 line).bind fun args w2 =>
    (lsh_execute fuel os w2 args).bind fun status w3 =>
    if status ≠ 0 then loopBody fuel os k (nextInput os w3) else .returned () w3

/-- Embedding of `lsh_loop`.  `rounds` bounds the number of iterations and `fuel` the number of
`waitpid` calls of each launch. -/
def lsh_loop (fuel rounds : Nat) (os : OS) (w : World) : Outcome Unit :=
  loopBody fuel os rounds w

/-- Embedding of `main`. -/
def main (fuel rounds : Nat) (os : OS) (w : World) : Outcome Int :=
  (lsh_loop fuel rounds os w).bind fun _ w1 => .returned EXIT_SUCCESS w1

/-! ## Specification-side definitions -/

/-- Delimiter test of the specification: space, tab, carriage return, newline, bell. -/
def isDelim (c : Char) : Bool :=
  c = ' ' || c = '\t' || c = '\r' || c = '\n' || c = Char.ofNat 7

/-- The maximal runs of non-delimiter characters of a line, from left to right: the line is
cut at every delimiter and the empty pieces are dropped. -/
def nonDelimRuns (line : List Char) : List (List Char) :=
  (line.splitOnP isDelim).filter (fun t => !t.isEmpty)

/-- A character buffer that holds the line `s`, its terminating NUL, and then `junk`. -/
def lineBuf (s : List Char) (junk : CBuf) : CBuf :=
  s.map some ++ some NUL :: junk

/-- A NULL-terminated pointer array holding the strings `toks`, followed by `junk`. -/
def tokenList (toks : List (List Char)) (junk : Args) : Args :=
  toks.map (fun t => some (CharPtr.str t)) ++ some CharPtr.null :: junk

/-- An oracle used to evaluate the definitions on concrete inputs: every allocation is
granted, `chdir` succeeds except on the path `nowhere`, `fork` returns 7 in the original
process, `execvp` fails, the first status delivered is "stopped" (127) and the next one
"exited" (0), the input is left as the process left it. -/
def demoOS : OS where
  input := fun w => w.stdin
  alloc := fun _ _ => true
  chdir := fun _ p => decide (p ≠ "nowhere".toList)
  fork := fun _ => 7
  execvp := fun _ _ _ => false
  waitpid := fun w pid => if Event.waitpid pid 127 ∈ w.trace then 0 else 127
  WIFEXITED := fun s => decide (s % 128 = 0)
  WIFSIGNALED := fun s => decide (s % 128 ≠ 0 ∧ s % 128 ≠ 127)

/-- An initial world with the given input. -/
def startWorld (input : List Char) : World :=
  { stdin := input, trace := [], cwd := "/".toList }

/-- The world after `k` further `waitpid` calls on `pid`. -/
def waitWorld (os : OS) (pid : Int) : Nat → World → World
  | 0, w => w
  | k + 1, w => waitWorld os pid k (w.emit (.waitpid pid (os.waitpid w pid)))

/-- The status delivered by the call of `waitpid` number `k` (counted from 0) on `pid`,
starting in world `w`. -/
def waitStatus (os : OS) (pid : Int) (k : Nat) (w : World) : Int :=
  os.waitpid (waitWorld os pid k w) pid

/-- A status is terminal when the child exited normally or was terminated by a signal. -/
def terminal (os : OS) (status : Int) : Bool :=
  os.WIFEXITED status || os.WIFSIGNALED status

/-- The input stream made of the given lines, each followed by a newline, and then `rest`. -/
def feed (lines : List (List Char)) (rest : List Char) : List Char :=
  lines.foldr (fun l acc => l ++ '\n' :: acc) rest

/-- The part of a line that is seen once it is stored as a C string: the characters before
its first NUL (the whole line when it has none). -/
def visible (l : List Char) : List Char :=
  l.takeWhile (fun c => !decide (c = NUL))

/-- The tokens of a line: the maximal non-delimiter runs of its visible part. -/
def tokensOfLine (l : List Char) : List (List Char) :=
  nonDelimRuns (visible l)

/-- The pointer array that holds the tokens of a line: the tokens, the sentinel, and the
unwritten remainder of a block that grew by 64 cells at a time. -/
def argsOfLine (l : List Char) : Args :=
  tokenList (tokensOfLine l)
    (List.replicate (64 * ((tokensOfLine l).length / 64 + 1) - (tokensOfLine l).length - 1) none)

/-- The first token of a line, if it has one. -/
def firstToken (l : List Char) : Option (List Char) :=
  (tokensOfLine l).head?

/-- The prompt printed at the start of every iteration of the loop. -/
def prompt : Event := .out "> ".toList

/-- The world reached when the given lines have been handled one after the other, in order:
for each line the prompt is printed, the line and its newline are taken from the input
(`tail` is what follows the last of these lines), and its tokens are dispatched by
`lsh_execute`.  `none` when one of these dispatches does not return to the loop, or when
the unread input found after it is not the one the process left. -/
def afterLines (fuel : Nat) (os : OS) : List (List Char) → List Char → World → Option World
  | [], _, w => some w
  | l :: ls, tail, w =>
    match lsh_execute fuel os
        { stdin := feed ls tail, trace := w.trace ++ [prompt], cwd := w.cwd }
        (argsOfLine l) with
    | .returned _ w1 =>
      if os.input w1 = w1.stdin then afterLines fuel os ls tail w1 else none
    | _ => none

/-- The number of characters at which `lsh_read_line` can no longer grow its buffer: the
next capacity, `2^31`, is not an `int`. -/
def LINE_LIMIT : Nat := 2147482624

/-- The oracle `demoOS` with a launched program that reads standard input to its end, as
`cat` does when the input is a terminal, which hands over one line per read: after a
dispatch that waited for a child, no input is left. -/
def catOS : OS where
  input := fun w => if w.trace.any (fun e => e matches .waitpid _ _) then [] else w.stdin
  alloc := demoOS.alloc
  chdir := demoOS.chdir
  fork := demoOS.fork
  execvp := demoOS.execvp
  waitpid := demoOS.waitpid
  WIFEXITED := demoOS.WIFEXITED
  WIFSIGNALED := demoOS.WIFSIGNALED

/-- The oracle `demoOS` with `fork` returning `pid` instead: a negative `pid` is a failed
`fork`, and with `pid = 0` the process followed is the duplicate. -/
def forkOS (pid : Int) : OS where
  input := demoOS.input
  alloc := demoOS.alloc
  chdir := demoOS.chdir
  fork := fun _ => pid
  execvp := demoOS.execvp
  waitpid := demoOS.waitpid
  WIFEXITED := demoOS.WIFEXITED
  WIFSIGNALED := demoOS.WIFSIGNALED

/-- Capacity in force once `n` items have been stored in a block that starts with `step`
cells and gains `step` cells each time the write position reaches the capacity. -/
def capacityAfter (step n : Nat) : Nat :=
  step * (n / step + 1)

/-- The block of `lsh_read_line` once the characters `acc` have been stored: `acc`, then
unwritten cells up to the capacity in force. -/
def charBlock (acc : List Char) : CBuf :=
  acc.map some ++ List.replicate (capacityAfter 1024 acc.length - acc.length) none

/-- Instrumented copy of `splitLoop`: the same control flow, but the result is the list of the
stores `tokens[position] = ...` performed, in order, the store of the sentinel included.
Each entry gives the index written, the value of `bufsize` at that moment, and the number
of cells of the block at that moment. -/
def splitLoopWrites (os : OS) (w : World) : Nat → Option (List Char) → List Char → Nat →
    Nat → Args → List (Nat × Nat × Nat)
  | 0, _, _, _, _, _ => []
  | _ + 1, none, _, bufsize, position, tokens => [(position, bufsize, tokens.length)]
  | fuel + 1, some token, saved, bufsize, position, tokens =>
    (position, bufsize, tokens.length) ::
      match store tokens position (CharPtr.str token) with
      | none => []
      | some t =>
        let position := position + 1
        if position ≥ bufsize then
          let bufsize := bufsize + LSH_TOK_BUFSIZE
          if os.alloc w bufsize then
            let next := strtok none LSH_TOK_DELIM saved
            splitLoopWrites os w fuel next.1 next.2 bufsize position (reallocBlock t bufsize)
          else []
        else
          let next := strtok none LSH_TOK_DELIM saved
          splitLoopWrites os w fuel next.1 next.2 bufsize position t

/-- The stores performed by `lsh_split_line`, in order (see `splitLoopWrites`). -/
def lsh_split_line_writes (os : OS) (w : World) (line : CBuf) : List (Nat × Nat × Nat) :=
  let bufsize := LSH_TOK_BUFSIZE
  if os.alloc w bufsize then
    match cstr line with
    | none => []
    | some s =>
      let first := strtok (some s) LSH_TOK_DELIM []
      splitLoopWrites os w (s.length + 2) first.1 first.2 bufsize 0 (mallocBlock bufsize)
  else []

/-- The line obtained by joining tokens: the characters `lead`, then each token followed by
its gap; `pieces` lists the tokens with the gap that follows each of them. -/
def joinLine (lead : List Char) (pieces : List (List Char × List Char)) : List Char :=
  lead ++ (pieces.map (fun p => p.1 ++ p.2)).flatten

/-! ## Memory lemmas -/

theorem store_at_end {α : Type} (pre : List (Option α)) (n : Nat) (v : α) :
    store (pre ++ List.replicate (n + 1) none) pre.length v
      = some ((pre ++ [some v]) ++ List.replicate n none) := by
  simp [store, List.replicate_succ]

theorem reallocBlock_grow {α : Type} (b : List (Option α)) (k : Nat) :
    reallocBlock b (b.length + k) = b ++ List.replicate k none := by
  simp [reallocBlock]

theorem cstr_lineBuf (s : List Char) (junk : CBuf) :
    cstr (lineBuf s junk) = some (visible s) := by
  induction s with
  | nil => simp [lineBuf, cstr, visible]
  | cons c cs ih =>
    simp only [lineBuf, visible] at ih
    by_cases hc : c = NUL
    · simp [lineBuf, cstr, visible, hc]
    · simp [lineBuf, cstr, visible, hc, ih]

theorem visible_of_nul_free (s : List Char) (h : NUL ∉ s) : visible s = s := by
  induction s with
  | nil => rfl
  | cons c cs ih =>
    have hc : c ≠ NUL := fun e => h (by simp [e])
    have hcs : NUL ∉ cs := fun e => h (by simp [e])
    have := ih hcs
    simp only [visible] at this
    simp [visible, hc, this]

theorem visible_length_le (s : List Char) : (visible s).length ≤ s.length :=
  (List.takeWhile_sublist _).length_le

theorem argv_tokenList (toks : List (List Char)) (junk : Args) :
    argv (tokenList toks junk) = some toks := by
  induction toks with
  | nil => simp [tokenList, argv]
  | cons t ts ih =>
    simp only [tokenList] at ih
    simp [tokenList, argv, ih]

/-! ## Tokenizer lemmas -/

theorem delim_eq : LSH_TOK_DELIM = [' ', '\t', '\r', '\n', Char.ofNat 7] := by decide

theorem mem_delim (c : Char) : decide (c ∈ LSH_TOK_DELIM) = isDelim c := by
  simp [delim_eq, isDelim, Bool.or_assoc]

theorem nonDelimRuns_nil : nonDelimRuns [] = [] := by
  simp [nonDelimRuns]

theorem nonDelimRuns_cons_delim (c : Char) (s : List Char) (h : isDelim c = true) :
    nonDelimRuns (c :: s) = nonDelimRuns s := by
  simp [nonDelimRuns, List.splitOnP_cons, h]

theorem nonDelimRuns_dropWhile (s : List Char) :
    nonDelimRuns (s.dropWhile isDelim) = nonDelimRuns s := by
  induction s with
  | nil => rfl
  | cons c cs ih =>
    by_cases h : isDelim c = true
    · rw [List.dropWhile_cons_of_pos h, ih, nonDelimRuns_cons_delim c cs h]
    · rw [List.dropWhile_cons_of_neg h]

theorem splitOnP_no_delim (t : List Char) (h : ∀ c ∈ t, ¬ isDelim c = true) :
    t.splitOnP isDelim = [t] := by
  induction t with
  | nil => simp
  | cons c cs ih =>
    have hc : ¬ isDelim c = true := h c (by simp)
    have := ih (fun x hx => h x (by simp [hx]))
    simp [List.splitOnP_cons, hc, this]

theorem nonDelimRuns_token (t rest : List Char) (ht : t ≠ [])
    (h : ∀ c ∈ t, ¬ isDelim c = true) (hr : ∀ c, rest.head? = some c → isDelim c = true) :
    nonDelimRuns (t ++ rest) = t :: nonDelimRuns (rest.drop 1) := by
  cases rest with
  | nil =>
    have : t.isEmpty = false := by cases t <;> simp_all
    simp [nonDelimRuns, splitOnP_no_delim t h, this]
  | cons d r =>
    have hd : isDelim d = true := hr d rfl
    have : t.isEmpty = false := by cases t <;> simp_all
    simp [nonDelimRuns, List.splitOnP_first isDelim t h d hd r, this]

theorem strtok_spec (str : Option (List Char)) (saved : List Char) :
    (strtok str LSH_TOK_DELIM saved).1 = none ∧ nonDelimRuns (str.getD saved) = []
    ∨ ∃ t, (strtok str LSH_TOK_DELIM saved).1 = some t
        ∧ nonDelimRuns (str.getD saved)
            = t :: nonDelimRuns (strtok str LSH_TOK_DELIM saved).2
        ∧ (strtok str LSH_TOK_DELIM saved).2.length < (str.getD saved).length := by
  have hfun : (fun c => decide (c ∈ LSH_TOK_DELIM)) = isDelim := funext mem_delim
  have hfun2 : (fun c => !decide (c ∈ LSH_TOK_DELIM)) = (fun c => !isDelim c) := by
    funext c; rw [mem_delim]
  simp only [strtok, hfun, hfun2]
  generalize str.getD saved = s0
  rw [← nonDelimRuns_dropWhile s0]
  have hlen : (s0.dropWhile isDelim).length ≤ s0.length :=
    (List.dropWhile_sublist isDelim).length_le
  have hhead : ∀ c, (s0.dropWhile isDelim).head? = some c → ¬ isDelim c = true := by
    intro c hc
    have := List.head?_dropWhile_not isDelim s0
    rw [hc] at this
    simpa using this
  generalize s0.dropWhile isDelim = s at hlen hhead
  by_cases hs : s = []
  · left
    simp [hs, nonDelimRuns_nil]
  · right
    refine ⟨s.takeWhile (fun c => !isDelim c), by simp [hs], ?_, ?_⟩
    · simp only [hs, if_false]
      have hsplit := List.takeWhile_append_dropWhile (fun c => !isDelim c) s
      have hne : s.takeWhile (fun c => !isDelim c) ≠ [] := by
        cases s with
        | nil => exact absurd rfl hs
        | cons c cs =>
          have := hhead c rfl
          simp [List.takeWhile_cons, this]
      have hall : ∀ c ∈ s.takeWhile (fun c => !isDelim c), ¬ isDelim c = true := by
        intro c hc
        have := List.mem_takeWhile_imp hc
        simpa using this
      have hrest : ∀ c, (s.dropWhile (fun c => !isDelim c)).head? = some c →
          isDelim c = true := by
        intro c hc
        have := List.head?_dropWhile_not (fun c => !isDelim c) s
        rw [hc] at this
        simpa using this
      have := nonDelimRuns_token _ _ hne hall hrest
      rw [hsplit] at this
      exact this
    · simp only [hs, if_false]
      have h1 : ((s.dropWhile (fun c => !isDelim c)).drop 1).length
          ≤ (s.dropWhile (fun c => !isDelim c)).length := by simp
      have hsplit := congrArg List.length
        (List.takeWhile_append_dropWhile (fun c => !isDelim c) s)
      have hne : 0 < (s.takeWhile (fun c => !isDelim c)).length := by
        cases s with
        | nil => exact absurd rfl hs
        | cons c cs =>
          have := hhead c rfl
          simp [List.takeWhile_cons, this]
      rw [List.length_append] at hsplit
      omega

/-- Capacity of the token list once `n` tokens have been stored. -/
theorem tok_capacity_step (n : Nat) :
    (n + 1 ≥ 64 * (n / 64 + 1) → 64 * (n / 64 + 1) + 64 = 64 * ((n + 1) / 64 + 1)
        ∧ n + 1 = 64 * (n / 64 + 1))
    ∧ (¬ n + 1 ≥ 64 * (n / 64 + 1) → 64 * (n / 64 + 1) = 64 * ((n + 1) / 64 + 1)) := by
  constructor <;> intro h <;> omega

theorem splitLoop_spec (os : OS) (w : World) (hmem : ∀ n, os.alloc w n = true) :
    ∀ (fuel : Nat) (token : Option (List Char)) (saved : List Char) (bufsize position : Nat)
      (tokens : Args) (acc r : List (List Char)),
      position = acc.length →
      bufsize = 64 * (position / 64 + 1) →
      tokens = acc.map (fun t => some (CharPtr.str t))
                ++ List.replicate (bufsize - position) none →
      1 ≤ fuel →
      (token = none ∧ r = []
        ∨ ∃ t, token = some t ∧ r = t :: nonDelimRuns saved ∧ saved.length + 2 ≤ fuel) →
      splitLoop os w fuel token saved bufsize position tokens
        = .returned (tokenList (acc ++ r)
            (List.replicate (64 * ((acc ++ r).length / 64 + 1) - (acc ++ r).length - 1) none)) w := by
  intro fuel
  induction fuel with
  | zero => intro _ _ _ _ _ _ _ _ _ _ h; omega
  | succ fuel ih =>
    intro token saved bufsize position tokens acc r hpos hbuf htok _ hinv
    have hlt : position < bufsize := by omega
    obtain ⟨n, hn⟩ : ∃ n, bufsize - position = n + 1 := ⟨bufsize - position - 1, by omega⟩
    rcases hinv with ⟨htk, hr⟩ | ⟨t, htk, hr, hfuel⟩
    · subst htk hr
      have hst := store_at_end (acc.map (fun t => some (CharPtr.str t))) n CharPtr.null
      rw [List.length_map, ← hpos, ← hn, ← htok] at hst
      simp only [splitLoop, hst, List.append_nil]
      have : 64 * (acc.length / 64 + 1) - acc.length - 1 = n := by omega
      rw [this]
      simp [tokenList]
    · subst htk hr
      have hst := store_at_end (acc.map (fun t => some (CharPtr.str t))) n (CharPtr.str t)
      rw [List.length_map, ← hpos, ← hn, ← htok] at hst
      have hacc : acc.map (fun t => some (CharPtr.str t)) ++ [some (CharPtr.str t)]
          = (acc ++ [t]).map (fun t => some (CharPtr.str t)) := by simp
      rw [hacc] at hst
      have hnext := strtok_spec none saved
      simp only [Option.getD_none] at hnext
      have hinv' : ((strtok none LSH_TOK_DELIM saved).1 = none ∧ nonDelimRuns saved = []
          ∨ ∃ t', (strtok none LSH_TOK_DELIM saved).1 = some t'
              ∧ nonDelimRuns saved = t' :: nonDelimRuns (strtok none LSH_TOK_DELIM saved).2
              ∧ (strtok none LSH_TOK_DELIM saved).2.length + 2 ≤ fuel) := by
        rcases hnext with h | ⟨t', h1, h2, h3⟩
        · exact Or.inl h
        · exact Or.inr ⟨t', h1, h2, by omega⟩
      have hfuel1 : 1 ≤ fuel := by omega
      have hlen : (acc ++ [t]).length = position + 1 := by simp [hpos]
      have hcap := tok_capacity_step position
      have hgoal : acc ++ t :: nonDelimRuns saved = (acc ++ [t]) ++ nonDelimRuns saved := by
        simp
      rw [hgoal]
      simp only [splitLoop, hst, LSH_TOK_BUFSIZE, hmem, if_true]
      by_cases hge : position + 1 ≥ bufsize
      · simp only [hge, if_true]
        have h1 := hcap.1 (by omega)
        apply ih _ _ _ _ _ (acc ++ [t]) _ hlen.symm (by omega) _ hfuel1 hinv'
        have hn0 : n = 0 := by omega
        subst hn0
        have hblen : ((acc ++ [t]).map (fun t => some (CharPtr.str t))
            ++ List.replicate 0 none).length = bufsize := by
          simp [hpos]; omega
        have := reallocBlock_grow ((acc ++ [t]).map (fun t => some (CharPtr.str t))
            ++ List.replicate 0 (none : Option CharPtr)) 64
        rw [hblen] at this
        rw [this]
        have : bufsize + 64 - (position + 1) = 64 := by omega
        rw [this]
        simp
      · simp only [hge, if_false]
        have h1 := hcap.2 (by omega)
        apply ih _ _ _ _ _ (acc ++ [t]) _ hlen.symm (by omega) _ hfuel1 hinv'
        have : bufsize - (position + 1) = n := by omega
        rw [this]

theorem lsh_split_line_eq (os : OS) (w : World) (s : List Char) (junk : CBuf)
    (hmem : ∀ n, os.alloc w n = true) :
    lsh_split_line os w (lineBuf s junk) = .returned (argsOfLine s) w := by
  simp only [lsh_split_line, hmem, if_true, cstr_lineBuf s junk]
  have hfirst := strtok_spec (some (visible s)) []
  simp only [Option.getD_some] at hfirst
  have := splitLoop_spec os w hmem ((visible s).length + 2)
    (strtok (some (visible s)) LSH_TOK_DELIM []).1
    (strtok (some (visible s)) LSH_TOK_DELIM []).2 LSH_TOK_BUFSIZE 0
    (mallocBlock LSH_TOK_BUFSIZE)
    [] (nonDelimRuns (visible s)) rfl (by simp [LSH_TOK_BUFSIZE]) (by simp [mallocBlock])
    (by omega)
    (by
      rcases hfirst with h | ⟨t, h1, h2, h3⟩
      · exact Or.inl h
      · exact Or.inr ⟨t, h1, h2, by omega⟩)
  simpa [argsOfLine, tokensOfLine] using this

/-- C1. For every NUL-free line (stored in a buffer with its terminating NUL) and with every
allocation request granted, `lsh_split_line` returns a pointer array made of exactly the
maximal runs of non-delimiter characters of the line, in left-to-right order, followed by
the NULL sentinel (the remaining cells of the grown block are unwritten); the delimiters
are space, tab, carriage return, newline and bell.  The argument vector read from the
array is the list of runs, so the number of real tokens is the number of runs, whatever
their number. -/
theorem split_line_maximal_runs (os : OS) (w : World) (s : List Char) (junk : CBuf)
    (hnul : NUL ∉ s) (hmem : ∀ n, os.alloc w n = true) :
    lsh_split_line os w (lineBuf s junk)
        = .returned (tokenList (nonDelimRuns s)
            (List.replicate
              (64 * ((nonDelimRuns s).length / 64 + 1) - (nonDelimRuns s).length - 1) none)) w
      ∧ argv (tokenList (nonDelimRuns s)
            (List.replicate
              (64 * ((nonDelimRuns s).length / 64 + 1) - (nonDelimRuns s).length - 1) none))
          = some (nonDelimRuns s)
      ∧ (∀ c, c ∈ LSH_TOK_DELIM ↔ isDelim c = true) := by
  refine ⟨?_, argv_tokenList _ _, ?_⟩
  · have := lsh_split_line_eq os w s junk hmem
    simpa only [argsOfLine, tokensOfLine, visible_of_nul_free s hnul] using this
  · intro c
    rw [← mem_delim c]
    simp

theorem split_line_maximal_runs_witness :
    NUL ∉ " ab  cd\te ".toList
      ∧ lsh_split_line demoOS (startWorld []) (lineBuf " ab  cd\te ".toList [])
          = .returned (tokenList ["ab".toList, "cd".toList, "e".toList]
              (List.replicate 60 none)) (startWorld []) :=
  ⟨by decide,
   (split_line_maximal_runs demoOS (startWorld []) " ab  cd\te ".toList [] (by decide)
      (fun _ => rfl)).1⟩

/-! ## Dispatcher lemmas -/

theorem strcmp_eq_zero (a b : List Char) : strcmp a b = 0 ↔ a = b := by
  induction a generalizing b with
  | nil => cases b <;> simp [strcmp]
  | cons x xs ih =>
    cases b with
    | nil => simp [strcmp]
    | cons y ys =>
      by_cases h : x = y
      · simp [strcmp, h, ih]
      · by_cases h2 : x < y <;> simp [strcmp, h, h2]

theorem range_builtins : List.range lsh_num_builtins = [0, 1, 2] := by decide

theorem load_tokenList_zero (t : List Char) (ts : List (List Char)) (junk : Args) :
    load (tokenList (t :: ts) junk) 0 = some (CharPtr.str t) := by
  simp [load, tokenList]

theorem load_tokenList_nil (junk : Args) :
    load (tokenList [] junk) 0 = some CharPtr.null := by
  simp [load, tokenList]

theorem waitLoop_returns (os : OS) (pid : Int) :
    ∀ (k fuel : Nat) (w : World),
      (∀ j, j < k → terminal os (waitStatus os pid j w) = false) →
      terminal os (waitStatus os pid k w) = true →
      k < fuel →
      waitLoop os pid fuel w = .returned () (waitWorld os pid (k + 1) w) := by
  intro k
  induction k with
  | zero =>
    intro fuel w _ hterm hk
    obtain ⟨f, rfl⟩ : ∃ f, fuel = f + 1 := ⟨fuel - 1, by omega⟩
    simp only [waitStatus, waitWorld, terminal, Bool.or_eq_true] at hterm
    simp only [waitLoop, waitWorld]
    rcases hterm with h | h <;> simp [h]
  | succ k ih =>
    intro fuel w hnon hterm hk
    obtain ⟨f, rfl⟩ : ∃ f, fuel = f + 1 := ⟨fuel - 1, by omega⟩
    have h0 := hnon 0 (by omega)
    simp only [waitStatus, waitWorld, terminal, Bool.or_eq_false_iff] at h0
    have hrec := ih f (w.emit (.waitpid pid (os.waitpid w pid)))
      (fun j hj => by
        have := hnon (j + 1) (by omega)
        simpa [waitStatus, waitWorld] using this)
      (by simpa [waitStatus, waitWorld] using hterm) (by omega)
    simp only [waitLoop, h0.1, h0.2]
    simpa [waitWorld] using hrec

theorem waitLoop_timeout_or_returned (os : OS) (pid : Int) :
    ∀ (fuel : Nat) (w : World),
      (∃ w1, waitLoop os pid fuel w = .returned () w1)
      ∨ (∃ w1, waitLoop os pid fuel w = .timeout w1) := by
  intro fuel
  induction fuel with
  | zero => intro w; exact Or.inr ⟨w, rfl⟩
  | succ f ih =>
    intro w
    simp only [waitLoop]
    split
    · exact ih _
    · exact Or.inl ⟨_, rfl⟩

theorem lsh_launch_returns_one (fuel : Nat) (os : OS) (w : World) (args : Args)
    (v : Int) (w1 : World) (h : lsh_launch fuel os w args = .returned v w1) : v = 1 := by
  simp only [lsh_launch] at h
  split at h
  · split at h
    · split at h <;> simp at h
    · simp at h
  · split at h
    · simp at h
      exact h.1.symm
    · rcases waitLoop_timeout_or_returned os (os.fork w) fuel (w.emit (.fork (os.fork w)))
        with ⟨w2, h2⟩ | ⟨w2, h2⟩
      · rw [h2] at h
        simp [Outcome.bind] at h
        exact h.1.symm
      · rw [h2] at h
        simp [Outcome.bind] at h

theorem lsh_cd_returns_one (os : OS) (w : World) (args : Args)
    (v : Int) (w1 : World) (h : lsh_cd os w args = .returned v w1) : v = 1 := by
  simp only [lsh_cd] at h
  split at h
  · simp at h
  · simp at h
    exact h.1.symm
  · split at h <;> (simp at h; exact h.1.symm)

theorem helpLoop_builtins (w : World) :
    helpLoop w (List.range lsh_num_builtins)
      = .returned () (((w.emit (.out "  cd\n".toList)).emit (.out "  help\n".toList)).emit
          (.out "  exit\n".toList)) := by
  rw [range_builtins]
  simp [helpLoop, builtin_str]

theorem lsh_help_eq (os : OS) (w : World) (args : Args) :
    lsh_help os w args = .returned 1
      { stdin := w.stdin,
        trace := w.trace ++
          [.out "Saurabh's version of Stephen B's LSH\n".toList,
           .out "Type program names and arguments, and hit enter.\n".toList,
           .out "The following are built in:\n".toList,
           .out "  cd\n".toList, .out "  help\n".toList, .out "  exit\n".toList,
           .out "Use the man command for information on other programs.\n".toList],
        cwd := w.cwd } := by
  simp [lsh_help, helpLoop_builtins, Outcome.bind, World.emit]

theorem lsh_execute_str (fuel : Nat) (os : OS) (w : World) (args : Args) (t : List Char)
    (h0 : load args 0 = some (CharPtr.str t)) :
    lsh_execute fuel os w args =
      if t = "cd".toList then lsh_cd os w args
      else if t = "help".toList then lsh_help os w args
      else if t = "exit".toList then lsh_exit os w args
      else lsh_launch fuel os w args := by
  simp only [lsh_execute, h0, range_builtins, executeLoop, builtin_str, builtin_func,
    List.get?_cons_zero, List.get?_cons_succ, strcmp_eq_zero]

theorem lsh_execute_exit (fuel : Nat) (os : OS) (w : World) (args : Args)
    (h0 : load args 0 = some (CharPtr.str "exit".toList)) :
    lsh_execute fuel os w args = .returned 0 w := by
  rw [lsh_execute_str fuel os w args _ h0]
  simp [lsh_exit]

theorem lsh_execute_not_exit (fuel : Nat) (os : OS) (w : World) (args : Args)
    (t : List Char) (h0 : load args 0 = some (CharPtr.str t)) (hne : t ≠ "exit".toList)
    (v : Int) (w1 : World) (h : lsh_execute fuel os w args = .returned v w1) : v = 1 := by
  rw [lsh_execute_str fuel os w args t h0] at h
  by_cases hcd : t = "cd".toList
  · rw [if_pos hcd] at h
    exact lsh_cd_returns_one os w args v w1 h
  · rw [if_neg hcd] at h
    by_cases hhelp : t = "help".toList
    · rw [if_pos hhelp, lsh_help_eq] at h
      simp at h
      exact h.1.symm
    · rw [if_neg hhelp, if_neg hne] at h
      exact lsh_launch_returns_one fuel os w args v w1 h

/-- C2. For every pointer array whose first cell holds a string, for every behaviour of the
operating system and every bound on waiting, `lsh_execute` returns 0 (stop) if and only
if that string is exactly `exit`; when it is, the world is unchanged (nothing is written
and no operating-system call is recorded), whatever the other cells hold. -/
theorem execute_stop_iff_exit (fuel : Nat) (os : OS) (w : World) (args : Args)
    (t : List Char) (h0 : load args 0 = some (CharPtr.str t)) :
    ((∃ w1, lsh_execute fuel os w args = .returned 0 w1) ↔ t = "exit".toList)
      ∧ (t = "exit".toList → lsh_execute fuel os w args = .returned 0 w) := by
  have hstop : t = "exit".toList → lsh_execute fuel os w args = .returned 0 w := by
    intro h
    subst h
    exact lsh_execute_exit fuel os w args h0
  refine ⟨⟨?_, fun h => ⟨w, hstop h⟩⟩, hstop⟩
  rintro ⟨w1, h⟩
  by_contra hne
  have := lsh_execute_not_exit fuel os w args t h0 hne 0 w1 h
  omega

theorem execute_stop_iff_exit_witness :
    load (tokenList ["exit".toList, "now".toList] []) 0 = some (CharPtr.str "exit".toList)
      ∧ lsh_execute 0 demoOS (startWorld []) (tokenList ["exit".toList, "now".toList] [])
          = .returned 0 (startWorld []) :=
  ⟨by decide,
   (execute_stop_iff_exit 0 demoOS (startWorld []) (tokenList ["exit".toList, "now".toList] [])
      "exit".toList (by decide)).2 rfl⟩

theorem nonDelimRuns_blank (s : List Char) (h : ∀ c ∈ s, isDelim c = true) :
    nonDelimRuns s = [] := by
  induction s with
  | nil => exact nonDelimRuns_nil
  | cons c cs ih =>
    rw [nonDelimRuns_cons_delim c cs (h c (by simp))]
    exact ih (fun x hx => h x (by simp [hx]))

/-- C3. For every line made only of delimiter characters (the empty line included), with
every allocation request granted, `lsh_split_line` returns an array whose first cell is the
sentinel (zero real tokens), and `lsh_execute` on that array returns 1 (continue) and leaves
the world as it was: same output and error history, same working directory, no
operating-system call. -/
theorem blank_line_no_effect (fuel : Nat) (os : OS) (w : World) (s : List Char)
    (junk : CBuf) (hblank : ∀ c ∈ s, isDelim c = true) (hmem : ∀ n, os.alloc w n = true) :
    lsh_split_line os w (lineBuf s junk)
        = .returned (tokenList [] (List.replicate 63 none)) w
      ∧ argv (tokenList [] (List.replicate 63 none)) = some []
      ∧ lsh_execute fuel os w (tokenList [] (List.replicate 63 none)) = .returned 1 w
      ∧ (lsh_split_line os w (lineBuf s junk)).bind
          (fun args w1 => lsh_execute fuel os w1 args) = .returned 1 w := by
  have hvis : nonDelimRuns (visible s) = [] :=
    nonDelimRuns_blank _ (fun c hc => hblank c ((List.takeWhile_sublist _).subset hc))
  have hsplit := lsh_split_line_eq os w s junk hmem
  simp only [argsOfLine, tokensOfLine, hvis] at hsplit
  have h63 : 64 * (([] : List (List Char)).length / 64 + 1)
      - ([] : List (List Char)).length - 1 = 63 := by decide
  rw [h63] at hsplit
  have hexec : lsh_execute fuel os w (tokenList [] (List.replicate 63 none))
      = .returned 1 w := by
    simp [lsh_execute, load_tokenList_nil]
  refine ⟨hsplit, argv_tokenList _ _, hexec, ?_⟩
  rw [hsplit]
  exact hexec

theorem blank_line_no_effect_witness :
    (∀ c ∈ "  ".toList, isDelim c = true)
      ∧ (lsh_split_line demoOS (startWorld []) (lineBuf "  ".toList [])).bind
          (fun args w1 => lsh_execute 0 demoOS w1 args) = .returned 1 (startWorld []) :=
  ⟨by decide,
   (blank_line_no_effect 0 demoOS (startWorld []) "  ".toList [] (by decide)
      (fun _ => rfl)).2.2.2⟩

/-- C4. For every token list whose first token is none of `cd`, `help`, `exit` (compared
exactly), `lsh_execute` behaves as `lsh_launch` on the same, unmodified array (no builtin
handler runs).  In the duplicate, a successful `execvp` replaces the image with the program
named by the first token and the full token list as argument vector.  In the original
process `lsh_execute` returns 1 (continue): when process creation fails, and when it
succeeds and some `waitpid` call within the bound delivers a terminal status, whatever that
status is.  It never returns another value. -/
theorem execute_external (fuel : Nat) (os : OS) (w : World) (t : List Char)
    (more : List (List Char)) (junk : Args)
    (hcd : t ≠ "cd".toList) (hhelp : t ≠ "help".toList) (hexit : t ≠ "exit".toList) :
    lsh_execute fuel os w (tokenList (t :: more) junk)
        = lsh_launch fuel os w (tokenList (t :: more) junk)
      ∧ (os.fork w = 0 → os.execvp (w.emit (.fork 0)) t (t :: more) = true →
          lsh_execute fuel os w (tokenList (t :: more) junk)
            = .replaced t (t :: more) (w.emit (.fork 0)))
      ∧ (os.fork w < 0 →
          lsh_execute fuel os w (tokenList (t :: more) junk)
            = .returned 1 ((w.emit (.fork (os.fork w))).emit (.perror "lsh".toList)))
      ∧ (0 < os.fork w → ∀ k, k < fuel →
          (∀ j, j < k →
            terminal os (waitStatus os (os.fork w) j (w.emit (.fork (os.fork w)))) = false) →
          terminal os (waitStatus os (os.fork w) k (w.emit (.fork (os.fork w)))) = true →
          lsh_execute fuel os w (tokenList (t :: more) junk)
            = .returned 1 (waitWorld os (os.fork w) (k + 1) (w.emit (.fork (os.fork w)))))
      ∧ (∀ v w1, lsh_execute fuel os w (tokenList (t :: more) junk) = .returned v w1 →
          v = 1) := by
  have hroute : lsh_execute fuel os w (tokenList (t :: more) junk)
      = lsh_launch fuel os w (tokenList (t :: more) junk) := by
    rw [lsh_execute_str fuel os w _ t (load_tokenList_zero t more junk),
      if_neg hcd, if_neg hhelp, if_neg hexit]
  rw [hroute]
  refine ⟨rfl, ?_, ?_, ?_, ?_⟩
  · intro hpid hexec
    simp [lsh_launch, hpid, load_tokenList_zero, argv_tokenList, hexec]
  · intro hpid
    have hne : os.fork w ≠ 0 := by omega
    simp [lsh_launch, hpid, hne]
  · intro hpid k hk hnon hterm
    have hne : os.fork w ≠ 0 := by omega
    have hnl : ¬ os.fork w < 0 := by omega
    simp only [lsh_launch, hne, hnl, if_false,
      waitLoop_returns os (os.fork w) k fuel _ hnon hterm hk, Outcome.bind]
  · intro v w1 h
    exact lsh_launch_returns_one fuel os w _ v w1 h

theorem execute_external_witness :
    ("ls".toList ≠ "cd".toList ∧ "ls".toList ≠ "help".toList ∧ "ls".toList ≠ "exit".toList)
      ∧ lsh_execute 2 demoOS (startWorld []) (tokenList ["ls".toList, "-l".toList] [])
          = .returned 1
              { stdin := [], trace := [.fork 7, .waitpid 7 127, .waitpid 7 0],
                cwd := "/".toList } :=
  ⟨by decide,
   (execute_external 2 demoOS (startWorld []) "ls".toList ["-l".toList] []
      (by decide) (by decide) (by decide)).2.2.2.1 (by decide) 1 (by decide) (by decide)
      (by decide)⟩

/-! ## Line reader lemmas -/

theorem reallocBlock_length {α : Type} (b : List (Option α)) (n : Nat) :
    (reallocBlock b n).length = n := by
  simp only [reallocBlock, List.length_append, List.length_take, List.length_replicate]
  omega

theorem wrapInt_of_nat (n : Nat) (h : n < 2147483648) : wrapInt (n : Int) = (n : Int) := by
  simp only [wrapInt]
  omega

theorem toSize_of_nat (n : Nat) (h : n < 18446744073709551616) : toSize (n : Int) = n := by
  simp only [toSize]
  omega

theorem storeAt_nat {α : Type} (b : List (Option α)) (n : Nat) (v : α) :
    storeAt b (n : Int) v = store b n v := by
  simp [storeAt]

theorem granted_of_le (os : OS) (hmem : ∀ w n, os.alloc w n = true) (w : World) (n : Nat)
    (h : n ≤ MAX_BLOCK) : granted os w n = true := by
  simp [granted, h, hmem]

theorem store_charBlock (acc : List Char) (c : Char) :
    store (charBlock acc) acc.length c
      = some ((acc ++ [c]).map some
          ++ List.replicate (capacityAfter 1024 acc.length - acc.length - 1) none) := by
  obtain ⟨n, hn⟩ : ∃ n, capacityAfter 1024 acc.length - acc.length = n + 1 :=
    ⟨capacityAfter 1024 acc.length - acc.length - 1, by simp only [capacityAfter]; omega⟩
  have hst := store_at_end (acc.map some) n c
  rw [List.length_map, ← hn] at hst
  have hn' : capacityAfter 1024 acc.length - acc.length - 1 = n := by omega
  rw [hn', charBlock, hst]
  simp

theorem charBlock_snoc (acc : List Char) (c : Char) :
    charBlock (acc ++ [c])
      = if acc.length + 1 ≥ capacityAfter 1024 acc.length then
          reallocBlock ((acc ++ [c]).map some
            ++ List.replicate (capacityAfter 1024 acc.length - acc.length - 1) none)
            (capacityAfter 1024 acc.length + 1024)
        else (acc ++ [c]).map some
          ++ List.replicate (capacityAfter 1024 acc.length - acc.length - 1) none := by
  have hlen : (acc ++ [c]).length = acc.length + 1 := by simp
  by_cases hge : acc.length + 1 ≥ capacityAfter 1024 acc.length
  · rw [if_pos hge]
    simp only [capacityAfter] at hge
    have h0 : capacityAfter 1024 acc.length - acc.length - 1 = 0 := by
      simp only [capacityAfter]; omega
    have hb : ((acc ++ [c]).map some ++ List.replicate 0 (none : Option Char)).length
        = capacityAfter 1024 acc.length := by
      simp only [capacityAfter, List.length_append, List.length_map, List.length_replicate,
        hlen]
      omega
    have hre := reallocBlock_grow ((acc ++ [c]).map some
      ++ List.replicate 0 (none : Option Char)) 1024
    rw [hb] at hre
    rw [h0, hre, List.replicate_zero, List.append_nil, charBlock, hlen]
    have : capacityAfter 1024 (acc.length + 1) - (acc.length + 1) = 1024 := by
      simp only [capacityAfter]; omega
    rw [this]
  · rw [if_neg hge]
    simp only [capacityAfter] at hge
    rw [charBlock, hlen]
    have : capacityAfter 1024 (acc.length + 1) - (acc.length + 1)
        = capacityAfter 1024 acc.length - acc.length - 1 := by
      simp only [capacityAfter]; omega
    rw [this]

theorem readLoop_step (os : OS) (hmem : ∀ w n, os.alloc w n = true) (c : Char)
    (rest : List Char) (w : World) (acc : List Char) (hc : c ≠ '\n')
    (hlen : acc.length + 1 < LINE_LIMIT) :
    readLoop os (c :: rest) w ((capacityAfter 1024 acc.length : Nat) : Int)
        ((acc.length : Nat) : Int) (charBlock acc)
      = readLoop os rest { stdin := rest, trace := w.trace, cwd := w.cwd }
          ((capacityAfter 1024 (acc ++ [c]).length : Nat) : Int)
          (((acc ++ [c]).length : Nat) : Int) (charBlock (acc ++ [c])) := by
  simp only [LINE_LIMIT] at hlen
  have hl : (acc ++ [c]).length = acc.length + 1 := by simp
  have hpos : wrapInt (((acc.length : Nat) : Int) + 1) = ((acc.length + 1 : Nat) : Int) := by
    rw [← wrapInt_of_nat (acc.length + 1) (by omega)]
    push_cast
    rfl
  simp only [readLoop, hc, if_false, storeAt_nat, store_charBlock, hpos, hl]
  rw [charBlock_snoc]
  by_cases hge : acc.length + 1 ≥ capacityAfter 1024 acc.length
  · have hge' : ((acc.length + 1 : Nat) : Int) ≥ ((capacityAfter 1024 acc.length : Nat) : Int) := by
      exact_mod_cast hge
    have hcap : capacityAfter 1024 acc.length + 1024 = capacityAfter 1024 (acc.length + 1) := by
      simp only [capacityAfter] at hge ⊢; omega
    have hlt : capacityAfter 1024 acc.length + 1024 < 2147483648 := by
      simp only [capacityAfter] at hge ⊢; omega
    have hbuf : wrapInt (((capacityAfter 1024 acc.length : Nat) : Int)
        + ((LSH_RL_BUFSIZE : Nat) : Int))
        = ((capacityAfter 1024 acc.length + 1024 : Nat) : Int) := by
      rw [← wrapInt_of_nat (capacityAfter 1024 acc.length + 1024) hlt]
      simp only [LSH_RL_BUFSIZE]
      push_cast
      rfl
    rw [if_pos hge, if_pos hge', hbuf,
      toSize_of_nat _ (by omega),
      granted_of_le os hmem _ _ (by simp only [MAX_BLOCK]; omega), if_pos rfl, hcap]
  · have hge' : ¬ ((acc.length + 1 : Nat) : Int)
        ≥ ((capacityAfter 1024 acc.length : Nat) : Int) := by
      exact_mod_cast hge
    have hcap : capacityAfter 1024 acc.length = capacityAfter 1024 (acc.length + 1) := by
      simp only [capacityAfter] at hge ⊢; omega
    rw [if_neg hge, if_neg hge', ← hcap]

theorem readLoop_newline (os : OS) (rest : List Char) (w : World) (acc : List Char) :
    readLoop os ('\n' :: rest) w ((capacityAfter 1024 acc.length : Nat) : Int)
        ((acc.length : Nat) : Int) (charBlock acc)
      = .returned (lineBuf acc
            (List.replicate (1024 * (acc.length / 1024 + 1) - acc.length - 1) none))
          { stdin := rest, trace := w.trace, cwd := w.cwd } := by
  obtain ⟨n, hn⟩ : ∃ n, capacityAfter 1024 acc.length - acc.length = n + 1 :=
    ⟨capacityAfter 1024 acc.length - acc.length - 1, by simp only [capacityAfter]; omega⟩
  have hst := store_at_end (acc.map some) n NUL
  rw [List.length_map, ← hn] at hst
  have hn' : 1024 * (acc.length / 1024 + 1) - acc.length - 1 = n := by
    simp only [capacityAfter] at hn; omega
  simp only [readLoop, if_true, storeAt_nat, charBlock, hst, hn', lineBuf]
  simp

theorem readLoop_prefix (os : OS) (hmem : ∀ w n, os.alloc w n = true) :
    ∀ (a tail : List Char) (w : World) (acc : List Char),
      '\n' ∉ a →
      (acc ++ a).length < LINE_LIMIT →
      w.stdin = a ++ tail →
      readLoop os (a ++ tail) w ((capacityAfter 1024 acc.length : Nat) : Int)
          ((acc.length : Nat) : Int) (charBlock acc)
        = readLoop os tail { stdin := tail, trace := w.trace, cwd := w.cwd }
            ((capacityAfter 1024 (acc ++ a).length : Nat) : Int)
            (((acc ++ a).length : Nat) : Int) (charBlock (acc ++ a)) := by
  intro a
  induction a with
  | nil =>
    intro tail w acc _ _ hw
    have : ({ stdin := tail, trace := w.trace, cwd := w.cwd } : World) = w := by
      cases w
      simp only [List.nil_append] at hw
      simp [hw]
    rw [this]
    simp
  | cons c cs ih =>
    intro tail w acc hnl hlen _
    have hc : c ≠ '\n' := fun e => hnl (by simp [e])
    have hcs : '\n' ∉ cs := fun e => hnl (by simp [e])
    have hl : (acc ++ c :: cs).length = acc.length + cs.length + 1 := by
      simp only [List.length_append, List.length_cons]
      omega
    have happ : acc ++ c :: cs = (acc ++ [c]) ++ cs := by simp
    rw [List.cons_append, readLoop_step os hmem c (cs ++ tail) w acc hc
      (by omega)]
    rw [ih tail { stdin := cs ++ tail, trace := w.trace, cwd := w.cwd } (acc ++ [c]) hcs
      (by rw [← happ]; exact hlen) rfl, ← happ]

theorem read_line_start (os : OS) (hmem : ∀ w n, os.alloc w n = true) (w : World) :
    lsh_read_line os w
      = readLoop os w.stdin w ((capacityAfter 1024 ([] : List Char).length : Nat) : Int)
          ((([] : List Char).length : Nat) : Int) (charBlock []) := by
  have h1 : toSize ((LSH_RL_BUFSIZE : Nat) : Int) = 1024 := by decide
  have h2 : granted os w 1024 = true :=
    granted_of_le os hmem w 1024 (by decide)
  simp only [lsh_read_line, h1, h2, if_true]
  rfl

theorem read_line_eq (os : OS) (w : World) (s rest : List Char)
    (hin : w.stdin = s ++ '\n' :: rest) (hnl : '\n' ∉ s) (hlen : s.length < LINE_LIMIT)
    (hmem : ∀ w1 n, os.alloc w1 n = true) :
    lsh_read_line os w
      = .returned (lineBuf s
          (List.replicate (1024 * (s.length / 1024 + 1) - s.length - 1) none))
          { stdin := rest, trace := w.trace, cwd := w.cwd } := by
  rw [read_line_start os hmem, hin,
    readLoop_prefix os hmem s ('\n' :: rest) w [] hnl (by simpa using hlen) hin]
  simp only [List.nil_append]
  exact readLoop_newline os rest _ s

theorem read_line_eof (os : OS) (w : World) (hnl : '\n' ∉ w.stdin)
    (hlen : w.stdin.length < LINE_LIMIT) (hmem : ∀ w1 n, os.alloc w1 n = true) :
    lsh_read_line os w
      = .exited EXIT_SUCCESS { stdin := [], trace := w.trace, cwd := w.cwd } := by
  rw [read_line_start os hmem]
  have := readLoop_prefix os hmem w.stdin [] w [] (by simpa using hnl)
    (by simpa using hlen) (by simp)
  rw [List.append_nil] at this
  rw [this]
  rfl

theorem waitLoop_stdin (os : OS) (pid : Int) :
    ∀ (fuel : Nat) (w w1 : World), waitLoop os pid fuel w = .returned () w1 →
      w1.stdin = w.stdin := by
  intro fuel
  induction fuel with
  | zero => intro w w1 h; simp [waitLoop] at h
  | succ f ih =>
    intro w w1 h
    simp only [waitLoop] at h
    split at h
    · exact ih (w.emit (.waitpid pid (os.waitpid w pid))) w1 h
    · simp at h
      rw [← h]
      rfl

theorem lsh_launch_stdin (fuel : Nat) (os : OS) (w : World) (args : Args)
    (v : Int) (w1 : World) (h : lsh_launch fuel os w args = .returned v w1) :
    w1.stdin = w.stdin := by
  simp only [lsh_launch] at h
  split at h
  · split at h
    · split at h <;> simp at h
    · simp at h
  · split at h
    · simp at h
      rw [← h.2]
      rfl
    · rcases waitLoop_timeout_or_returned os (os.fork w) fuel (w.emit (.fork (os.fork w)))
        with ⟨w2, h2⟩ | ⟨w2, h2⟩
      · have hs := waitLoop_stdin os _ fuel _ w2 h2
        rw [h2] at h
        simp [Outcome.bind] at h
        rw [← h.2, hs]
        rfl
      · rw [h2] at h
        simp [Outcome.bind] at h

theorem lsh_cd_stdin (os : OS) (w : World) (args : Args)
    (v : Int) (w1 : World) (h : lsh_cd os w args = .returned v w1) :
    w1.stdin = w.stdin := by
  simp only [lsh_cd] at h
  split at h
  · simp at h
  · simp at h
    rw [← h.2]
    rfl
  · split at h <;> (simp at h; rw [← h.2] <;> rfl)

theorem lsh_execute_stdin (fuel : Nat) (os : OS) (w : World) (args : Args)
    (v : Int) (w1 : World) (h : lsh_execute fuel os w args = .returned v w1) :
    w1.stdin = w.stdin := by
  cases h0 : load args 0 with
  | none => simp [lsh_execute, h0] at h
  | some p =>
    cases p with
    | null =>
      simp [lsh_execute, h0] at h
      rw [← h.2]
    | str t =>
      rw [lsh_execute_str fuel os w args t h0] at h
      split at h
      · exact lsh_cd_stdin os w args v w1 h
      · split at h
        · rw [lsh_help_eq] at h
          simp at h
          rw [← h.2]
        · split at h
          · simp [lsh_exit] at h
            rw [← h.2]
          · exact lsh_launch_stdin fuel os w args v w1 h

theorem load_argsOfLine (l : List Char) :
    load (argsOfLine l) 0 = match firstToken l with
      | none => some CharPtr.null
      | some t => some (CharPtr.str t) := by
  simp only [argsOfLine, firstToken]
  cases tokensOfLine l with
  | nil => simp [load, tokenList]
  | cons t ts => simp [load, tokenList]

theorem lsh_execute_line_not_exit (fuel : Nat) (os : OS) (w : World) (l : List Char)
    (hne : firstToken l ≠ some "exit".toList)
    (v : Int) (w1 : World) (h : lsh_execute fuel os w (argsOfLine l) = .returned v w1) :
    v = 1 := by
  have hl := load_argsOfLine l
  cases hf : firstToken l with
  | none =>
    rw [hf] at hl
    simp [lsh_execute, hl] at h
    exact h.1.symm
  | some t =>
    rw [hf] at hl hne
    exact lsh_execute_not_exit fuel os w _ t hl (fun e => hne (by rw [e])) v w1 h

theorem feed_length (ls : List (List Char)) (tail : List Char) :
    ls.length ≤ (feed ls tail).length := by
  induction ls with
  | nil => simp
  | cons l ls ih =>
    simp only [feed, List.foldr_cons, List.length_cons, List.length_append] at ih ⊢
    omega

theorem loopBody_step (fuel : Nat) (os : OS) (k : Nat) (w : World) (l tail : List Char)
    (hin : w.stdin = l ++ '\n' :: tail) (hnl : '\n' ∉ l) (hlen : l.length < LINE_LIMIT)
    (hmem : ∀ w1 n, os.alloc w1 n = true) :
    loopBody fuel os (k + 1) w
      = (lsh_execute fuel os
            { stdin := tail, trace := w.trace ++ [prompt], cwd := w.cwd }
            (argsOfLine l)).bind
          (fun status w3 =>
            if status ≠ 0 then loopBody fuel os k (nextInput os w3) else .returned () w3) := by
  have hread := read_line_eq os (w.emit prompt) l tail (by simpa [World.emit] using hin) hnl
    hlen hmem
  simp only [loopBody]
  change ((lsh_read_line os (w.emit prompt)).bind _) = _
  rw [hread]
  simp only [Outcome.bind, World.emit]
  rw [lsh_split_line_eq os _ l _ (hmem _)]

theorem nextInput_undisturbed (os : OS) (w : World) (h : os.input w = w.stdin) :
    nextInput os w = w := by
  cases w
  simp only [nextInput] at h ⊢
  simp [h]

theorem loopBody_lines (fuel : Nat) (os : OS) (hmem : ∀ w1 n, os.alloc w1 n = true)
    (e rest : List Char) (he : '\n' ∉ e) (helen : e.length < LINE_LIMIT)
    (hexit : firstToken e = some "exit".toList) :
    ∀ (pre : List (List Char)) (k : Nat) (w w2 : World),
      w.stdin = feed pre (e ++ '\n' :: rest) →
      (∀ l ∈ pre, '\n' ∉ l ∧ l.length < LINE_LIMIT ∧ firstToken l ≠ some "exit".toList) →
      afterLines fuel os pre (e ++ '\n' :: rest) w = some w2 →
      pre.length < k →
      loopBody fuel os k w
        = .returned () { stdin := rest, trace := w2.trace ++ [prompt], cwd := w2.cwd } := by
  intro pre
  induction pre with
  | nil =>
    intro k w w2 hin _ hafter hk
    obtain ⟨k, rfl⟩ : ∃ j, k = j + 1 := ⟨k - 1, by simp at hk; omega⟩
    simp only [afterLines, Option.some.injEq] at hafter
    subst hafter
    rw [loopBody_step fuel os k w e rest (by simpa [feed] using hin) he helen hmem]
    have hl := load_argsOfLine e
    rw [hexit] at hl
    rw [lsh_execute_exit fuel os _ _ hl]
    simp [Outcome.bind]
  | cons l ls ih =>
    intro k w w2 hin hpre hafter hk
    obtain ⟨k, rfl⟩ : ∃ j, k = j + 1 := ⟨k - 1, by simp at hk; omega⟩
    have hl := hpre l (by simp)
    rw [loopBody_step fuel os k w l (feed ls (e ++ '\n' :: rest))
      (by simpa [feed] using hin) hl.1 hl.2.1 hmem]
    simp only [afterLines] at hafter
    cases hx : lsh_execute fuel os
        { stdin := feed ls (e ++ '\n' :: rest), trace := w.trace ++ [prompt], cwd := w.cwd }
        (argsOfLine l) with
    | returned v w1 =>
      rw [hx] at hafter
      have hv := lsh_execute_line_not_exit fuel os _ l hl.2.2 v w1 hx
      have hs := lsh_execute_stdin fuel os _ _ v w1 hx
      subst hv
      by_cases hquiet : os.input w1 = w1.stdin
      · simp only [hquiet, if_true] at hafter
        simp only [Outcome.bind]
        rw [if_pos (by decide), nextInput_undisturbed os w1 hquiet]
        exact ih k w1 w2 hs (fun x hx => hpre x (by simp [hx])) hafter
          (by simp at hk; omega)
      · simp [hquiet] at hafter
    | exited c w1 => rw [hx] at hafter; simp at hafter
    | replaced p a w1 => rw [hx] at hafter; simp at hafter
    | fault w1 => rw [hx] at hafter; simp at hafter
    | timeout w1 => rw [hx] at hafter; simp at hafter

/-- C7 (amended). Let the input be lines `pre`, then a line `e`, each newline-terminated and
shorter than 2147482624 characters, then `rest`; no line of `pre` has `exit` as first token
and `e` has (for example `exit now`).  With every possible allocation request granted, and
every dispatch of a line of `pre` returning to the loop and leaving the unread input as the
process left it (the world `w2` they lead to, in input order, exists), `lsh_loop`, allowed
more iterations than `pre` has lines, handles the lines of `pre` one after the other in
input order, then `e`, and returns: exactly the
lines up to `e` have been read, `rest` is unread and nothing of it was dispatched, and
`main` returns the success exit code.  The dispatch of a line whose first token is not
`exit` never returns 0, so such a line never ends the loop. -/
theorem loop_stops_at_first_exit (fuel rounds : Nat) (os : OS) (w w2 : World)
    (pre : List (List Char)) (e rest : List Char)
    (hin : w.stdin = feed (pre ++ [e]) rest)
    (hpre : ∀ l ∈ pre,
      '\n' ∉ l ∧ l.length < 2147482624 ∧ firstToken l ≠ some "exit".toList)
    (he : '\n' ∉ e) (helen : e.length < 2147482624)
    (hexit : firstToken e = some "exit".toList)
    (hmem : ∀ w1 n, os.alloc w1 n = true)
    (hret : afterLines fuel os pre (e ++ '\n' :: rest) w = some w2)
    (hrounds : pre.length < rounds) :
    lsh_loop fuel rounds os w
        = .returned () { stdin := rest, trace := w2.trace ++ [prompt], cwd := w2.cwd }
      ∧ main fuel rounds os w
        = .returned EXIT_SUCCESS
            { stdin := rest, trace := w2.trace ++ [prompt], cwd := w2.cwd }
      ∧ (∀ (l : List Char) (w0 : World) (v : Int) (w1 : World),
          firstToken l ≠ some "exit".toList →
          lsh_execute fuel os w0 (argsOfLine l) = .returned v w1 → v ≠ 0) := by
  have hfeed : feed (pre ++ [e]) rest = feed pre (e ++ '\n' :: rest) := by
    simp [feed]
  have hloop : lsh_loop fuel rounds os w
      = .returned () { stdin := rest, trace := w2.trace ++ [prompt], cwd := w2.cwd } := by
    simp only [lsh_loop]
    exact loopBody_lines fuel os hmem e rest he helen hexit pre rounds w w2
      (by rw [hin, hfeed]) hpre hret hrounds
  refine ⟨hloop, ?_, ?_⟩
  · simp [main, hloop, Outcome.bind]
  · intro l w0 v w1 hne h
    have := lsh_execute_line_not_exit fuel os w0 l hne v w1 h
    omega

theorem loop_stops_at_first_exit_witness :
    (startWorld "ls -l\nexit now\nhelp\n".toList).stdin
        = feed (["ls -l".toList] ++ ["exit now".toList]) "help\n".toList
      ∧ (∀ l ∈ ["ls -l".toList],
          '\n' ∉ l ∧ l.length < 2147482624 ∧ firstToken l ≠ some "exit".toList)
      ∧ ('\n' ∉ "exit now".toList ∧ "exit now".toList.length < 2147482624)
      ∧ firstToken "exit now".toList = some "exit".toList
      ∧ afterLines 2 demoOS ["ls -l".toList] ("exit now".toList ++ '\n' :: "help\n".toList)
            (startWorld "ls -l\nexit now\nhelp\n".toList)
          = some { stdin := "exit now\nhelp\n".toList,
                   trace := [prompt, .fork 7, .waitpid 7 127, .waitpid 7 0],
                   cwd := "/".toList }
      ∧ main 2 2 demoOS (startWorld "ls -l\nexit now\nhelp\n".toList)
          = .returned 0
              { stdin := "help\n".toList,
                trace := [prompt, .fork 7, .waitpid 7 127, .waitpid 7 0, prompt],
                cwd := "/".toList } :=
  ⟨by decide, by decide, ⟨by decide, by decide⟩, by decide, by rfl,
   (loop_stops_at_first_exit 2 2 demoOS (startWorld "ls -l\nexit now\nhelp\n".toList)
      { stdin := "exit now\nhelp\n".toList,
        trace := [prompt, .fork 7, .waitpid 7 127, .waitpid 7 0], cwd := "/".toList }
      ["ls -l".toList] "exit now".toList "help\n".toList
      (by decide) (by decide) (by decide) (by decide) (by decide) (fun _ _ => rfl)
      (by rfl) (by decide)).2.1⟩

theorem loopBody_input_lost (fuel : Nat) (os : OS) (k : Nat) (w : World) (l tail : List Char)
    (v : Int) (w1 : World)
    (hin : w.stdin = l ++ '\n' :: tail) (hnl : '\n' ∉ l) (hlen : l.length < LINE_LIMIT)
    (hmem : ∀ w0 n, os.alloc w0 n = true)
    (hx : lsh_execute fuel os
        { stdin := tail, trace := w.trace ++ [prompt], cwd := w.cwd } (argsOfLine l)
          = .returned v w1)
    (hv : v ≠ 0) (hlost : os.input w1 = []) :
    loopBody fuel os (k + 2) w
      = .exited EXIT_SUCCESS { stdin := [], trace := w1.trace ++ [prompt], cwd := w1.cwd } := by
  rw [loopBody_step fuel os (k + 1) w l tail hin hnl hlen hmem, hx]
  simp only [Outcome.bind, if_pos hv]
  simp only [loopBody]
  have hread := read_line_eof os ((nextInput os w1).emit prompt)
    (by simp [nextInput, World.emit, hlost]) (by simp [nextInput, World.emit, hlost, LINE_LIMIT])
    hmem
  change ((lsh_read_line os ((nextInput os w1).emit prompt)).bind _) = _
  rw [hread]
  rfl

/-- Counterexample to C7 as stated ("every behaviour of the operating system"): the input is
the two lines `cat` and `exit`, and the launched program reads standard input, which it
shares with the interpreter, to its end (the input is delivered line by line, as a
terminal does).  The loop dispatches `cat`, then finds no input
left: the line `exit` is never read or dispatched by the loop, `lsh_loop` does not return
and `main` returns no exit code; the process ends inside `lsh_read_line`. -/
theorem loop_stops_at_first_exit_counterexample :
    main 2 9 catOS (startWorld "cat\nexit\n".toList)
        = .exited EXIT_SUCCESS
            { stdin := [],
              trace := [prompt, .fork 7, .waitpid 7 127, .waitpid 7 0, prompt],
              cwd := "/".toList }
      ∧ firstToken "cat".toList ≠ some "exit".toList
      ∧ firstToken "exit".toList = some "exit".toList
      ∧ ¬ ∃ v w1, main 2 9 catOS (startWorld "cat\nexit\n".toList) = .returned v w1 := by
  have hloop : lsh_loop 2 9 catOS (startWorld "cat\nexit\n".toList)
      = .exited EXIT_SUCCESS
          { stdin := [],
            trace := [prompt, .fork 7, .waitpid 7 127, .waitpid 7 0, prompt],
            cwd := "/".toList } :=
    loopBody_input_lost 2 catOS 7 (startWorld "cat\nexit\n".toList) "cat".toList
      "exit\n".toList 1
      { stdin := "exit\n".toList,
        trace := [prompt, .fork 7, .waitpid 7 127, .waitpid 7 0], cwd := "/".toList }
      (by decide) (by decide) (by decide) (fun _ _ => rfl) (by rfl) (by decide) (by decide)
  have hmain : main 2 9 catOS (startWorld "cat\nexit\n".toList)
      = .exited EXIT_SUCCESS
          { stdin := [],
            trace := [prompt, .fork 7, .waitpid 7 127, .waitpid 7 0, prompt],
            cwd := "/".toList } := by
    simp only [main, hloop, Outcome.bind]
  refine ⟨hmain, by decide, by decide, ?_⟩
  rintro ⟨v, w1, hret⟩
  rw [hmain] at hret
  exact Outcome.noConfusion hret

/-! ## Builtins -/

theorem load_tokenList_one_nil (t : List Char) (junk : Args) :
    load (tokenList [t] junk) 1 = some CharPtr.null := by
  simp [load, tokenList]

theorem load_tokenList_one (t d : List Char) (more : List (List Char)) (junk : Args) :
    load (tokenList (t :: d :: more) junk) 1 = some (CharPtr.str d) := by
  simp [load, tokenList]

/-- C8. For the token list made of `cd` alone (the next cell is the sentinel), `lsh_cd`, and
`lsh_execute` which calls it, return 1 (continue); the only action is the usage message on
the error channel: no `chdir` request is made and the working directory is unchanged. -/
theorem cd_without_argument (fuel : Nat) (os : OS) (w : World) (junk : Args) :
    lsh_cd os w (tokenList ["cd".toList] junk)
        = .returned 1
            { stdin := w.stdin,
              trace := w.trace ++ [.err "lsh: expected argument to \"cd\"\n".toList],
              cwd := w.cwd }
      ∧ lsh_execute fuel os w (tokenList ["cd".toList] junk)
        = lsh_cd os w (tokenList ["cd".toList] junk) := by
  constructor
  · simp [lsh_cd, load_tokenList_one_nil, World.emit]
  · rw [lsh_execute_str fuel os w _ _ (load_tokenList_zero _ _ _)]
    simp

/-- C9. For every token list `cd d ...`, `lsh_cd` makes exactly one `chdir` request, with path
`d` (later tokens play no role), and returns 1 (continue) whatever the answer.  If the
change succeeds the working directory is `d` and nothing is written; if it fails the
operating-system error is reported by `perror` on the error channel and the working
directory is unchanged.  `lsh_execute` reaches `lsh_cd` for such a list. -/
theorem cd_with_argument (fuel : Nat) (os : OS) (w : World) (d : List Char)
    (more : List (List Char)) (junk : Args) :
    (os.chdir w d = true →
        lsh_cd os w (tokenList ("cd".toList :: d :: more) junk)
          = .returned 1
              { stdin := w.stdin, trace := w.trace ++ [.chdir d true], cwd := d })
      ∧ (os.chdir w d = false →
        lsh_cd os w (tokenList ("cd".toList :: d :: more) junk)
          = .returned 1
              { stdin := w.stdin,
                trace := w.trace ++ [.chdir d false, .perror "lsh".toList],
                cwd := w.cwd })
      ∧ lsh_execute fuel os w (tokenList ("cd".toList :: d :: more) junk)
        = lsh_cd os w (tokenList ("cd".toList :: d :: more) junk) := by
  refine ⟨?_, ?_, ?_⟩
  · intro hok
    simp [lsh_cd, load_tokenList_one, hok]
  · intro hok
    simp [lsh_cd, load_tokenList_one, hok, World.emit]
  · rw [lsh_execute_str fuel os w _ _ (load_tokenList_zero _ _ _)]
    simp

theorem cd_with_argument_witness :
    (demoOS.chdir (startWorld []) "/tmp".toList = true
      ∧ lsh_cd demoOS (startWorld []) (tokenList ["cd".toList, "/tmp".toList, "x".toList] [])
          = .returned 1
              { stdin := [], trace := [.chdir "/tmp".toList true], cwd := "/tmp".toList })
      ∧ (demoOS.chdir (startWorld []) "nowhere".toList = false
        ∧ lsh_cd demoOS (startWorld []) (tokenList ["cd".toList, "nowhere".toList] [])
            = .returned 1
                { stdin := [],
                  trace := [.chdir "nowhere".toList false, .perror "lsh".toList],
                  cwd := "/".toList }) :=
  ⟨⟨by decide,
    (cd_with_argument 0 demoOS (startWorld []) "/tmp".toList ["x".toList] []).1 (by decide)⟩,
   ⟨by decide,
    (cd_with_argument 0 demoOS (startWorld []) "nowhere".toList [] []).2.1 (by decide)⟩⟩

/-- C10. For every token list whose first token is `help`, whatever follows, `lsh_execute`
returns 1 (continue) and its only actions are writes to the output channel: the three
banner lines, then one line per registered builtin name, in the order of the registry,
which holds exactly `cd`, `help`, `exit`, then a closing line.  Nothing is written to the
error channel, no operating-system call is made, and input and working directory are
unchanged. -/
theorem help_prints_builtins (fuel : Nat) (os : OS) (w : World)
    (more : List (List Char)) (junk : Args) :
    lsh_execute fuel os w (tokenList ("help".toList :: more) junk)
        = .returned 1
            { stdin := w.stdin,
              trace := w.trace
                ++ [.out "Saurabh's version of Stephen B's LSH\n".toList,
                    .out "Type program names and arguments, and hit enter.\n".toList,
                    .out "The following are built in:\n".toList]
                ++ builtin_str.map (fun name => .out ("  ".toList ++ name ++ "\n".toList))
                ++ [.out "Use the man command for information on other programs.\n".toList],
              cwd := w.cwd }
      ∧ builtin_str = ["cd".toList, "help".toList, "exit".toList] := by
  refine ⟨?_, rfl⟩
  rw [lsh_execute_str fuel os w _ _ (load_tokenList_zero _ _ _)]
  rw [if_neg (by decide), if_pos rfl, lsh_help_eq]
  simp [builtin_str]

/-! ## Process launcher lemmas -/

theorem waitWorld_trace (os : OS) (pid : Int) :
    ∀ (n : Nat) (w : World),
      (waitWorld os pid n w).trace
        = w.trace ++ (List.range n).map (fun j => Event.waitpid pid (waitStatus os pid j w)) := by
  intro n
  induction n with
  | zero => intro w; simp [waitWorld]
  | succ n ih =>
    intro w
    rw [List.range_succ_eq_map]
    simp only [waitWorld, ih, World.emit, List.map_cons, List.map_map, List.append_assoc,
      List.singleton_append]
    rfl

theorem waitLoop_timeout (os : OS) (pid : Int) :
    ∀ (fuel : Nat) (w : World),
      (∀ j, j < fuel → terminal os (waitStatus os pid j w) = false) →
      waitLoop os pid fuel w = .timeout (waitWorld os pid fuel w) := by
  intro fuel
  induction fuel with
  | zero => intro w _; rfl
  | succ f ih =>
    intro w hnon
    have h0 := hnon 0 (by omega)
    simp only [waitStatus, waitWorld, terminal, Bool.or_eq_false_iff] at h0
    simp only [waitLoop, h0.1, h0.2, waitWorld]
    exact ih _ (fun j hj => by
      have := hnon (j + 1) (by omega)
      simpa [waitStatus, waitWorld] using this)

theorem first_terminal (os : OS) (pid : Int) (w : World) (fuel : Nat) :
    (∀ j, j < fuel → terminal os (waitStatus os pid j w) = false)
    ∨ ∃ k, k < fuel ∧ (∀ j, j < k → terminal os (waitStatus os pid j w) = false)
        ∧ terminal os (waitStatus os pid k w) = true := by
  by_cases h : ∃ k, k < fuel ∧ terminal os (waitStatus os pid k w) = true
  · right
    refine ⟨Nat.find h, (Nat.find_spec h).1, ?_, (Nat.find_spec h).2⟩
    intro j hj
    have := Nat.find_min h hj
    have hjf : j < fuel := lt_trans hj (Nat.find_spec h).1
    simpa [hjf] using this
  · left
    intro j hj
    by_contra hc
    exact h ⟨j, hj, by simpa using hc⟩

theorem lsh_launch_parent (fuel : Nat) (os : OS) (w : World) (args : Args)
    (hpid : 0 < os.fork w) :
    lsh_launch fuel os w args
      = (waitLoop os (os.fork w) fuel (w.emit (.fork (os.fork w)))).bind
          (fun _ w2 => .returned 1 w2) := by
  have hne : os.fork w ≠ 0 := by omega
  have hnl : ¬ os.fork w < 0 := by omega
  simp only [lsh_launch, hne, hnl, if_false]

/-- C11. For every pointer array, when `fork` fails (negative result) `lsh_launch` returns 1
(continue) and its only actions after the `fork` call are one `perror` report on the error
channel: no `waitpid` call and no `execvp` attempt is made, whatever the bound on waiting. -/
theorem launch_fork_failure (fuel : Nat) (os : OS) (w : World) (args : Args)
    (hpid : os.fork w < 0) :
    lsh_launch fuel os w args
      = .returned 1
          { stdin := w.stdin,
            trace := w.trace ++ [.fork (os.fork w), .perror "lsh".toList],
            cwd := w.cwd } := by
  have hne : os.fork w ≠ 0 := by omega
  simp [lsh_launch, hpid, hne, World.emit]

theorem launch_fork_failure_witness :
    (forkOS (-1)).fork (startWorld []) < 0
      ∧ lsh_launch 0 (forkOS (-1)) (startWorld []) (tokenList ["ls".toList] [])
          = .returned 1
              { stdin := [], trace := [.fork (-1), .perror "lsh".toList],
                cwd := "/".toList } :=
  ⟨by decide,
   launch_fork_failure 0 (forkOS (-1)) (startWorld []) (tokenList ["ls".toList] [])
     (by decide)⟩

/-- C12. In the original process (positive `fork` result), for every sequence of statuses
delivered by the successive `waitpid` calls: if the first terminal status (exited or
signaled) is the one of call number `k`, within the bound, `lsh_launch` returns 1 after
exactly `k + 1` calls, the recorded statuses being those of calls `0 .. k`; if no status
within the bound is terminal it does not return; and whenever it returns, it returns 1
right after the first terminal status. -/
theorem launch_waits_until_terminal (fuel : Nat) (os : OS) (w : World) (args : Args)
    (hpid : 0 < os.fork w) :
    (∀ k, k < fuel →
        (∀ j, j < k →
          terminal os (waitStatus os (os.fork w) j (w.emit (.fork (os.fork w)))) = false) →
        terminal os (waitStatus os (os.fork w) k (w.emit (.fork (os.fork w)))) = true →
        lsh_launch fuel os w args
            = .returned 1 (waitWorld os (os.fork w) (k + 1) (w.emit (.fork (os.fork w))))
          ∧ (waitWorld os (os.fork w) (k + 1) (w.emit (.fork (os.fork w)))).trace
            = w.trace ++ [.fork (os.fork w)]
                ++ (List.range (k + 1)).map (fun j => Event.waitpid (os.fork w)
                    (waitStatus os (os.fork w) j (w.emit (.fork (os.fork w))))))
      ∧ ((∀ j, j < fuel →
          terminal os (waitStatus os (os.fork w) j (w.emit (.fork (os.fork w)))) = false) →
        lsh_launch fuel os w args
          = .timeout (waitWorld os (os.fork w) fuel (w.emit (.fork (os.fork w)))))
      ∧ (∀ v w2, lsh_launch fuel os w args = .returned v w2 →
          v = 1 ∧ ∃ k, k < fuel
            ∧ (∀ j, j < k →
              terminal os (waitStatus os (os.fork w) j (w.emit (.fork (os.fork w)))) = false)
            ∧ terminal os (waitStatus os (os.fork w) k (w.emit (.fork (os.fork w)))) = true
            ∧ w2 = waitWorld os (os.fork w) (k + 1) (w.emit (.fork (os.fork w)))) := by
  have hl := lsh_launch_parent fuel os w args hpid
  have hret : ∀ k, k < fuel →
      (∀ j, j < k →
        terminal os (waitStatus os (os.fork w) j (w.emit (.fork (os.fork w)))) = false) →
      terminal os (waitStatus os (os.fork w) k (w.emit (.fork (os.fork w)))) = true →
      lsh_launch fuel os w args
        = .returned 1 (waitWorld os (os.fork w) (k + 1) (w.emit (.fork (os.fork w)))) := by
    intro k hk hnon hterm
    rw [hl, waitLoop_returns os (os.fork w) k fuel _ hnon hterm hk]
    rfl
  have hto : (∀ j, j < fuel →
        terminal os (waitStatus os (os.fork w) j (w.emit (.fork (os.fork w)))) = false) →
      lsh_launch fuel os w args
        = .timeout (waitWorld os (os.fork w) fuel (w.emit (.fork (os.fork w)))) := by
    intro hnon
    rw [hl, waitLoop_timeout os (os.fork w) fuel _ hnon]
    rfl
  refine ⟨fun k hk hnon hterm => ⟨hret k hk hnon hterm, ?_⟩, hto, ?_⟩
  · rw [waitWorld_trace]
    simp [World.emit]
  · intro v w2 h
    rcases first_terminal os (os.fork w) (w.emit (.fork (os.fork w))) fuel
      with hnon | ⟨k, hk, hnon, hterm⟩
    · rw [hto hnon] at h
      simp at h
    · rw [hret k hk hnon hterm] at h
      simp only [Outcome.returned.injEq] at h
      exact ⟨h.1.symm, k, hk, hnon, hterm, h.2.symm⟩

theorem launch_waits_until_terminal_witness :
    0 < demoOS.fork (startWorld [])
      ∧ lsh_launch 5 demoOS (startWorld []) (tokenList ["ls".toList] [])
          = .returned 1
              { stdin := [], trace := [.fork 7, .waitpid 7 127, .waitpid 7 0],
                cwd := "/".toList }
      ∧ lsh_launch 1 demoOS (startWorld []) (tokenList ["ls".toList] [])
          = .timeout
              { stdin := [], trace := [.fork 7, .waitpid 7 127], cwd := "/".toList } :=
  ⟨by decide,
   ((launch_waits_until_terminal 5 demoOS (startWorld []) (tokenList ["ls".toList] [])
      (by decide)).1 1 (by decide) (by decide) (by decide)).1,
   (launch_waits_until_terminal 1 demoOS (startWorld []) (tokenList ["ls".toList] [])
      (by decide)).2.1 (by decide)⟩

/-- C13. In the duplicate (`fork` result 0), for every token list with a first token: if
`execvp` fails, `lsh_launch` reports the error by `perror` on the error channel and ends the
process with the failure exit code, which differs from the success code; if it succeeds the
image is replaced.  For every pointer array the duplicate never returns from `lsh_launch`;
so whenever `lsh_launch` returns, the process is not the duplicate and the value is 1. -/
theorem launch_child_never_returns (fuel : Nat) (os : OS) (w : World) (t : List Char)
    (more : List (List Char)) (junk : Args) :
    (os.fork w = 0 → os.execvp (w.emit (.fork 0)) t (t :: more) = false →
        lsh_launch fuel os w (tokenList (t :: more) junk)
          = .exited EXIT_FAILURE
              { stdin := w.stdin,
                trace := w.trace ++ [.fork 0, .execvp t (t :: more), .perror "lsh".toList],
                cwd := w.cwd })
      ∧ (os.fork w = 0 → os.execvp (w.emit (.fork 0)) t (t :: more) = true →
        lsh_launch fuel os w (tokenList (t :: more) junk)
          = .replaced t (t :: more) (w.emit (.fork 0)))
      ∧ EXIT_FAILURE ≠ EXIT_SUCCESS
      ∧ (os.fork w = 0 → ∀ (args : Args) (v : Int) (w1 : World),
          lsh_launch fuel os w args ≠ .returned v w1)
      ∧ (∀ (args : Args) (v : Int) (w1 : World),
          lsh_launch fuel os w args = .returned v w1 → os.fork w ≠ 0 ∧ v = 1) := by
  have hnever : os.fork w = 0 → ∀ (args : Args) (v : Int) (w1 : World),
      lsh_launch fuel os w args ≠ .returned v w1 := by
    intro hpid args v w1 h
    simp only [lsh_launch, hpid, if_true] at h
    split at h
    · split at h <;> simp at h
    · simp at h
  refine ⟨?_, ?_, by decide, hnever, ?_⟩
  · intro hpid hexec
    simp only [World.emit] at hexec
    simp [lsh_launch, hpid, load_tokenList_zero, argv_tokenList, hexec, World.emit]
  · intro hpid hexec
    simp [lsh_launch, hpid, load_tokenList_zero, argv_tokenList, hexec]
  · intro args v w1 h
    exact ⟨fun hpid => hnever hpid args v w1 h, lsh_launch_returns_one fuel os w args v w1 h⟩

theorem launch_child_never_returns_witness :
    ((forkOS 0).fork (startWorld []) = 0
        ∧ (forkOS 0).execvp ((startWorld []).emit (.fork 0)) "nosuch".toList
            ["nosuch".toList, "x".toList] = false)
      ∧ lsh_launch 3 (forkOS 0) (startWorld [])
          (tokenList ["nosuch".toList, "x".toList] [])
          = .exited 1
              { stdin := [],
                trace := [.fork 0, .execvp "nosuch".toList ["nosuch".toList, "x".toList],
                          .perror "lsh".toList],
                cwd := "/".toList } :=
  ⟨⟨by decide, by decide⟩,
   (launch_child_never_returns 3 (forkOS 0) (startWorld []) "nosuch".toList ["x".toList]
      []).1 (by decide) (by decide)⟩

/-! ## Capacity and bounds of the writes -/

theorem capacityAfter_gt (step n : Nat) (h : 0 < step) : n < capacityAfter step n := by
  simp only [capacityAfter]
  have h1 := Nat.div_add_mod n step
  have h2 := Nat.mod_lt n h
  rw [Nat.mul_add, Nat.mul_one]
  omega

theorem splitLoopWrites_spec (os : OS) (w : World) (hmem : ∀ n, os.alloc w n = true) :
    ∀ (fuel : Nat) (token : Option (List Char)) (saved : List Char) (bufsize position : Nat)
      (tokens : Args) (acc r : List (List Char)),
      position = acc.length →
      bufsize = 64 * (position / 64 + 1) →
      tokens = acc.map (fun t => some (CharPtr.str t))
                ++ List.replicate (bufsize - position) none →
      1 ≤ fuel →
      (token = none ∧ r = []
        ∨ ∃ t, token = some t ∧ r = t :: nonDelimRuns saved ∧ saved.length + 2 ≤ fuel) →
      splitLoopWrites os w fuel token saved bufsize position tokens
        = (List.range' position (r.length + 1)).map
            (fun k => (k, capacityAfter 64 k, capacityAfter 64 k)) := by
  intro fuel
  induction fuel with
  | zero => intro _ _ _ _ _ _ _ _ _ _ h; omega
  | succ fuel ih =>
    intro token saved bufsize position tokens acc r hpos hbuf htok _ hinv
    have hblen : tokens.length = bufsize := by
      rw [htok]
      simp only [List.length_append, List.length_map, List.length_replicate]
      omega
    have hhead : (position, bufsize, tokens.length)
        = (position, capacityAfter 64 position, capacityAfter 64 position) := by
      rw [hblen, hbuf, capacityAfter]
    obtain ⟨n, hn⟩ : ∃ n, bufsize - position = n + 1 := ⟨bufsize - position - 1, by omega⟩
    rcases hinv with ⟨htk, hr⟩ | ⟨t, htk, hr, hfuel⟩
    · subst htk hr
      simp [splitLoopWrites, hhead, List.range']
    · subst htk hr
      have hst := store_at_end (acc.map (fun t => some (CharPtr.str t))) n (CharPtr.str t)
      rw [List.length_map, ← hpos, ← hn, ← htok] at hst
      have hacc : acc.map (fun t => some (CharPtr.str t)) ++ [some (CharPtr.str t)]
          = (acc ++ [t]).map (fun t => some (CharPtr.str t)) := by simp
      rw [hacc] at hst
      have hnext := strtok_spec none saved
      simp only [Option.getD_none] at hnext
      have hinv' : ((strtok none LSH_TOK_DELIM saved).1 = none ∧ nonDelimRuns saved = []
          ∨ ∃ t', (strtok none LSH_TOK_DELIM saved).1 = some t'
              ∧ nonDelimRuns saved = t' :: nonDelimRuns (strtok none LSH_TOK_DELIM saved).2
              ∧ (strtok none LSH_TOK_DELIM saved).2.length + 2 ≤ fuel) := by
        rcases hnext with h | ⟨t', h1, h2, h3⟩
        · exact Or.inl h
        · exact Or.inr ⟨t', h1, h2, by omega⟩
      have hfuel1 : 1 ≤ fuel := by omega
      have hlen : (acc ++ [t]).length = position + 1 := by simp [hpos]
      have hrange : List.range' position ((t :: nonDelimRuns saved).length + 1)
          = position :: List.range' (position + 1) ((nonDelimRuns saved).length + 1) := by
        simp [List.range']
      simp only [splitLoopWrites, hst, LSH_TOK_BUFSIZE, hmem, if_true, hrange, List.map_cons,
        hhead]
      congr 1
      by_cases hge : position + 1 ≥ bufsize
      · simp only [hge, if_true]
        apply ih _ _ _ _ _ (acc ++ [t]) _ hlen.symm (by omega) _ hfuel1 hinv'
        have hn0 : n = 0 := by omega
        subst hn0
        have hb2 : ((acc ++ [t]).map (fun t => some (CharPtr.str t))
            ++ List.replicate 0 none).length = bufsize := by
          simp [hpos]; omega
        have := reallocBlock_grow ((acc ++ [t]).map (fun t => some (CharPtr.str t))
            ++ List.replicate 0 (none : Option CharPtr)) 64
        rw [hb2] at this
        rw [this]
        have : bufsize + 64 - (position + 1) = 64 := by omega
        rw [this]
        simp
      · simp only [hge, if_false]
        apply ih _ _ _ _ _ (acc ++ [t]) _ hlen.symm (by omega) _ hfuel1 hinv'
        have : bufsize - (position + 1) = n := by omega
        rw [this]

theorem lsh_split_line_writes_eq (os : OS) (w : World) (s : List Char) (junk : CBuf)
    (hmem : ∀ n, os.alloc w n = true) :
    lsh_split_line_writes os w (lineBuf s junk)
      = (List.range ((tokensOfLine s).length + 1)).map
          (fun k => (k, capacityAfter 64 k, capacityAfter 64 k)) := by
  simp only [lsh_split_line_writes, hmem, if_true, cstr_lineBuf s junk]
  have hfirst := strtok_spec (some (visible s)) []
  simp only [Option.getD_some] at hfirst
  have := splitLoopWrites_spec os w hmem ((visible s).length + 2)
    (strtok (some (visible s)) LSH_TOK_DELIM []).1
    (strtok (some (visible s)) LSH_TOK_DELIM []).2 LSH_TOK_BUFSIZE 0
    (mallocBlock LSH_TOK_BUFSIZE)
    [] (nonDelimRuns (visible s)) rfl (by simp [LSH_TOK_BUFSIZE]) (by simp [mallocBlock])
    (by omega)
    (by
      rcases hfirst with h | ⟨t, h1, h2, h3⟩
      · exact Or.inl h
      · exact Or.inr ⟨t, h1, h2, by omega⟩)
  rw [this, List.range_eq_range']
  rfl

theorem load_tokenList_end (toks : List (List Char)) (junk : Args) :
    load (tokenList toks junk) toks.length = some CharPtr.null := by
  have h : (toks.map (fun t => some (CharPtr.str t))).length ≤ toks.length := by simp
  simp [load, tokenList, List.getElem?_append_right h]

/-- C15. For every line with `n` tokens, with every allocation request granted:
`lsh_split_line` returns a block of exactly `64 * (n / 64 + 1)` cells that holds the tokens and
has the NULL sentinel at index `n`; the stores it performs are, in order, at the indices
`0 .. n` (the last one is the sentinel), and at the store at index `k` both the variable
`bufsize` and the real size of the block are `64 * (k / 64 + 1)`, which exceeds `k`.  In
particular, with a multiple of 64 tokens the block has 64 cells more than tokens when the
sentinel is stored. -/
theorem split_line_capacity (os : OS) (w : World) (s : List Char) (junk : CBuf)
    (hmem : ∀ n, os.alloc w n = true) :
    (∃ toks, lsh_split_line os w (lineBuf s junk) = .returned toks w
        ∧ toks.length = 64 * ((tokensOfLine s).length / 64 + 1)
        ∧ load toks (tokensOfLine s).length = some CharPtr.null
        ∧ argv toks = some (tokensOfLine s))
      ∧ lsh_split_line_writes os w (lineBuf s junk)
          = (List.range ((tokensOfLine s).length + 1)).map
              (fun k => (k, capacityAfter 64 k, capacityAfter 64 k))
      ∧ (∀ e ∈ lsh_split_line_writes os w (lineBuf s junk), e.1 < e.2.1 ∧ e.2.1 = e.2.2)
      ∧ capacityAfter LSH_TOK_BUFSIZE 0 = 64
      ∧ (∀ m, capacityAfter 64 (64 * m) = 64 * m + 64) := by
  have hwrites := lsh_split_line_writes_eq os w s junk hmem
  refine ⟨⟨_, lsh_split_line_eq os w s junk hmem, ?_, load_tokenList_end _ _,
    argv_tokenList _ _⟩, hwrites, ?_, by decide, ?_⟩
  · simp only [argsOfLine, tokenList, List.length_append, List.length_map, List.length_cons,
      List.length_replicate]
    omega
  · intro e he
    rw [hwrites] at he
    obtain ⟨k, _, rfl⟩ := List.mem_map.mp he
    exact ⟨capacityAfter_gt 64 k (by decide), rfl⟩
  · intro m
    simp only [capacityAfter]
    omega

theorem split_line_capacity_witness :
    (∀ n, demoOS.alloc (startWorld []) n = true)
      ∧ ∃ toks, lsh_split_line demoOS (startWorld [])
            (lineBuf (List.replicate 64 "ab ".toList).flatten []) = .returned toks (startWorld [])
        ∧ toks.length = 128
        ∧ load toks 64 = some CharPtr.null
        ∧ argv toks = some (List.replicate 64 "ab".toList) :=
  ⟨fun _ => rfl,
   (split_line_capacity demoOS (startWorld []) (List.replicate 64 "ab ".toList).flatten []
      (fun _ => rfl)).1⟩

/-! ## Round trip of the tokenizer -/

theorem nonDelimRuns_append_delims (d x : List Char) (hd : ∀ c ∈ d, isDelim c = true) :
    nonDelimRuns (d ++ x) = nonDelimRuns x := by
  induction d with
  | nil => rfl
  | cons c cs ih =>
    rw [List.cons_append, nonDelimRuns_cons_delim c _ (hd c (by simp))]
    exact ih (fun y hy => hd y (by simp [hy]))

theorem nonDelimRuns_joinLine :
    ∀ (pieces : List (List Char × List Char)) (lead : List Char),
      (∀ c ∈ lead, isDelim c = true) →
      (∀ p ∈ pieces, p.1 ≠ [] ∧ ∀ c ∈ p.1, isDelim c = false) →
      (∀ p ∈ pieces, ∀ c ∈ p.2, isDelim c = true) →
      (∀ p ∈ pieces.dropLast, p.2 ≠ []) →
      nonDelimRuns (joinLine lead pieces) = pieces.map Prod.fst := by
  intro pieces
  induction pieces with
  | nil =>
    intro lead hlead _ _ _
    simpa [joinLine] using nonDelimRuns_blank lead hlead
  | cons p ps ih =>
    intro lead hlead htok hgap hsep
    obtain ⟨t, g⟩ := p
    have ht := htok (t, g) (by simp)
    have hg := hgap (t, g) (by simp)
    have hps_tok : ∀ q ∈ ps, q.1 ≠ [] ∧ ∀ c ∈ q.1, isDelim c = false :=
      fun q hq => htok q (by simp [hq])
    have hps_gap : ∀ q ∈ ps, ∀ c ∈ q.2, isDelim c = true :=
      fun q hq => hgap q (by simp [hq])
    have hjoin : joinLine lead ((t, g) :: ps) = lead ++ (t ++ joinLine g ps) := by
      simp [joinLine]
    rw [hjoin, nonDelimRuns_append_delims lead _ hlead]
    have hall : ∀ c ∈ t, ¬ isDelim c = true := fun c hc => by simp [ht.2 c hc]
    cases g with
    | nil =>
      cases ps with
      | nil =>
        simp only [joinLine, List.map_nil, List.flatten_nil, List.append_nil, List.map_cons]
        have := nonDelimRuns_token t [] ht.1 hall (fun c hc => by simp at hc)
        simpa [nonDelimRuns_nil] using this
      | cons q qs =>
        exact absurd rfl (hsep (t, []) (by simp [List.dropLast]))
    | cons c g' =>
      have hr : ∀ x, (joinLine (c :: g') ps).head? = some x → isDelim x = true := by
        intro x hx
        simp only [joinLine, List.cons_append, List.head?_cons, Option.some.injEq] at hx
        rw [← hx]
        exact hg c (by simp)
      have hdrop : (joinLine (c :: g') ps).drop 1 = joinLine g' ps := by
        simp [joinLine]
      have hsep' : ∀ q ∈ ps.dropLast, q.2 ≠ [] := by
        intro q hq
        cases ps with
        | nil => simp at hq
        | cons q0 qs => exact hsep q (by simp [List.dropLast, hq])
      rw [nonDelimRuns_token t _ ht.1 hall hr, hdrop,
        ih g' (fun y hy => hg y (by simp [hy])) hps_tok hps_gap hsep']
      rfl

theorem isDelim_ne_nul (c : Char) (h : isDelim c = true) : c ≠ NUL := by
  intro e
  subst e
  revert h
  decide

theorem joinLine_nul_free (lead : List Char) (pieces : List (List Char × List Char))
    (hlead : ∀ c ∈ lead, isDelim c = true)
    (htok : ∀ p ∈ pieces, ∀ c ∈ p.1, c ≠ NUL)
    (hgap : ∀ p ∈ pieces, ∀ c ∈ p.2, isDelim c = true) :
    NUL ∉ joinLine lead pieces := by
  intro hmem
  simp only [joinLine, List.mem_append, List.mem_flatten, List.mem_map] at hmem
  rcases hmem with h | ⟨l, ⟨p, hp, rfl⟩, hl⟩
  · exact isDelim_ne_nul NUL (hlead NUL h) rfl
  · rcases List.mem_append.mp hl with h1 | h2
    · exact htok p hp NUL h1 rfl
    · exact isDelim_ne_nul NUL (hgap p hp NUL h2) rfl

/-- C16. Round trip of the tokenizer.  Take tokens that are non-empty, NUL-free and free of
delimiters; join them with delimiter strings: any such string, possibly empty, before the
first token and after the last one, and a non-empty one between consecutive tokens.  With
every allocation request granted, `lsh_split_line` on the resulting line returns exactly
the original tokens, in order, followed by the sentinel; no returned token is empty. -/
theorem split_line_round_trip (os : OS) (w : World) (lead : List Char)
    (pieces : List (List Char × List Char)) (junk : CBuf)
    (hlead : ∀ c ∈ lead, isDelim c = true)
    (htok : ∀ p ∈ pieces, p.1 ≠ [] ∧ ∀ c ∈ p.1, isDelim c = false ∧ c ≠ NUL)
    (hgap : ∀ p ∈ pieces, ∀ c ∈ p.2, isDelim c = true)
    (hsep : ∀ p ∈ pieces.dropLast, p.2 ≠ [])
    (hmem : ∀ n, os.alloc w n = true) :
    (∃ toks, lsh_split_line os w (lineBuf (joinLine lead pieces) junk) = .returned toks w
        ∧ argv toks = some (pieces.map Prod.fst)
        ∧ load toks pieces.length = some CharPtr.null)
      ∧ (∀ t ∈ pieces.map Prod.fst, t ≠ []) := by
  have hnul : NUL ∉ joinLine lead pieces :=
    joinLine_nul_free lead pieces hlead (fun p hp c hc => ((htok p hp).2 c hc).2) hgap
  have hruns : tokensOfLine (joinLine lead pieces) = pieces.map Prod.fst := by
    rw [tokensOfLine, visible_of_nul_free _ hnul]
    exact nonDelimRuns_joinLine pieces lead hlead
      (fun p hp => ⟨(htok p hp).1, fun c hc => ((htok p hp).2 c hc).1⟩) hgap hsep
  have hsplit := lsh_split_line_eq os w (joinLine lead pieces) junk hmem
  refine ⟨⟨_, hsplit, ?_, ?_⟩, ?_⟩
  · rw [argsOfLine, argv_tokenList, hruns]
  · have := load_tokenList_end (tokensOfLine (joinLine lead pieces))
      (List.replicate (64 * ((tokensOfLine (joinLine lead pieces)).length / 64 + 1)
        - (tokensOfLine (joinLine lead pieces)).length - 1) none)
    rw [hruns, List.length_map] at this
    simp only [argsOfLine, hruns, List.length_map]
    exact this
  · intro t ht
    obtain ⟨p, hp, rfl⟩ := List.mem_map.mp ht
    exact (htok p hp).1

theorem split_line_round_trip_witness :
    ((∀ c ∈ " ".toList, isDelim c = true)
      ∧ (∀ p ∈ [("ls".toList, " \t".toList), ("-l".toList, "  ".toList), ("x".toList, [])],
          p.1 ≠ [] ∧ ∀ c ∈ p.1, isDelim c = false ∧ c ≠ NUL)
      ∧ (∀ p ∈ [("ls".toList, " \t".toList), ("-l".toList, "  ".toList), ("x".toList, [])],
          ∀ c ∈ p.2, isDelim c = true)
      ∧ (∀ p ∈ [("ls".toList, " \t".toList), ("-l".toList, "  ".toList),
            ("x".toList, ([] : List Char))].dropLast, p.2 ≠ []))
      ∧ joinLine " ".toList
            [("ls".toList, " \t".toList), ("-l".toList, "  ".toList), ("x".toList, [])]
          = " ls \t-l  x".toList
      ∧ ∃ toks, lsh_split_line demoOS (startWorld []) (lineBuf " ls \t-l  x".toList [])
            = .returned toks (startWorld [])
          ∧ argv toks = some ["ls".toList, "-l".toList, "x".toList]
          ∧ load toks 3 = some CharPtr.null :=
  ⟨⟨by decide, by decide, by decide, by decide⟩, by decide,
   (split_line_round_trip demoOS (startWorld []) " ".toList
      [("ls".toList, " \t".toList), ("-l".toList, "  ".toList), ("x".toList, [])] []
      (by decide) (by decide) (by decide) (by decide) (fun _ => rfl)).1⟩

end Lsh
